import Mathlib

/-!
Shallow embedding of the `g-str` string-interning crate.

The source keeps a process-wide intrusive doubly linked list of
`GStrInterner` nodes (file `src/g_norep.rs`), reached through the
static `GLIST_NODO { begin, end }` and guarded by the static mutex
`GNOREP_LOOCK`.  Handles (`GStr`, file `src/lib.rs`) hold a raw
pointer to one node.

The embedding models raw pointers as natural-number addresses into an
association-list heap, the two static list heads plus a fresh-address
allocator as an explicit `State` record, and the mutex as a
`lockPoisoned` flag: `Mutex::lock().expect(..)` is modelled as
returning `Except.error` (the panic) when the flag is set.  Every
operation of the crate becomes a pure function on `State`.
-/

/-- One node of the intern registry; field for field the Rust struct
`GStrInterner { value, len, count, hash, next, prev }`, with the two
raw pointers `next`/`prev` modelled as optional addresses
(`none` = `ptr::null_mut()`). -/
structure GStrInterner where
  value : String
  len : Nat
  count : Nat
  hash : Nat
  next : Option Nat
  prev : Option Nat
deriving DecidableEq

/-- The handle type: `pub struct GStr { value: *mut GStrInterner }`. -/
structure GStr where
  value : Nat
deriving DecidableEq

/-- The allocated nodes, as an association list from address to node. -/
abbrev Heap := List (Nat × GStrInterner)

/-- Reading a node through a pointer: `some` when the address is
allocated, `none` when dangling (a dangling dereference is undefined
behaviour in the source). -/
def hlookup : Heap → Nat → Option GStrInterner
  | [], _ => none
  | (b, e) :: t, a => if a = b then some e else hlookup t a

/-- Writing through a pointer: `(*a).field = v` is `hmodify h a f`
with `f` updating that field.  An absent address leaves the heap
unchanged (the source would be undefined there). -/
def hmodify (h : Heap) (a : Nat) (f : GStrInterner → GStrInterner) : Heap :=
  h.map (fun p => if p.1 = a then (a, f p.2) else p)

/-- Deallocation (`Box::from_raw` being dropped): remove the binding. -/
def hfree (h : Heap) (a : Nat) : Heap :=
  h.filter (fun p => p.1 != a)

/-- The addresses currently allocated. -/
def heapKeys (h : Heap) : List Nat := h.map Prod.fst

/-- The whole mutable global state of the crate: the heap of nodes,
the allocator for fresh addresses, the statics
`GLIST_NODO.begin` / `GLIST_NODO.end` (the latter renamed `tail`), and
whether `GNOREP_LOOCK.lock()` fails (poisoned mutex). -/
structure State where
  heap : Heap
  nextAddr : Nat
  begin : Option Nat
  tail : Option Nat
  lockPoisoned : Bool
deriving DecidableEq

/-- `const CHAR_COUSIN : u32 = 486187739`. -/
def CHAR_COUSIN : Nat := 486187739

/-- `const CHAR_S : u32 = 31`. -/
def CHAR_S : Nat := 31

/-- `u32` wraparound modulus. -/
def U32 : Nat := 4294967296

/-- The loop of `ohash`: for each char, `len += 1;
hash = hash.wrapping_mul(CHAR_S).wrapping_add(ch as u32)
           .wrapping_mul(len as u32)`.
Each `wrapping_*` step is an explicit `% U32`; `len as u32` is
`len % U32`. -/
def ohashAux : List Char → Nat → Nat → Nat × Nat
  | [], hash, len => (hash, len)
  | ch :: rest, hash, len =>
    let len' := len + 1
    let hash' := ((((hash * CHAR_S) % U32 + ch.toNat) % U32) * (len' % U32)) % U32
    ohashAux rest hash' len'

/-- `pub(crate) fn ohash(c: &str, mlen: &mut usize) -> u32`.  The
out-parameter `*mlen` becomes the second component of the result. -/
def ohash (c : String) : Nat × Nat :=
  let hl := ohashAux c.data 0 0
  (hl.1 % CHAR_COUSIN, hl.2)

/-- `GStrInterner::compare`: fingerprint, length and full content
equality. -/
def GStrInterner.compare (e : GStrInterner) (hash : Nat) (len : Nat) (strn : String) : Bool :=
  e.hash == hash && e.len == len && e.value == strn

/-- `GStr::search_value`: walk the list from `value` through `next`;
on a `compare` match increment that node count and return a handle to
it.  The extra fuel argument bounds the pointer walk (the caller
passes the heap size; in a well-formed state the chain is never
longer, so the fuel never runs out). -/
def search_value (strn : String) (len : Nat) (hash : Nat) :
    Nat → Option Nat → Heap → Option (GStr × Heap)
  | 0, _, _ => none
  | _ + 1, none, _ => none
  | fuel + 1, some a, h =>
    match hlookup h a with
    | none => none
    | some e =>
      if e.compare hash len strn then
        some (⟨a⟩, hmodify h a (fun x => { x with count := x.count + 1 }))
      else
        search_value strn len hash fuel e.next h

/-- `GStr::create_gstr`: allocate a node with `count = 1`,
`next = null`, `prev = GLIST_NODO.end`; if the old tail exists patch
its `next`; the new node becomes the tail, and also the head when the
head was null. -/
def create_gstr (vstr : String) (len : Nat) (hash : Nat) (s : State) : GStr × State :=
  let gstr : GStrInterner :=
    { value := vstr, len := len, count := 1, hash := hash, next := none, prev := s.tail }
  let pun_str := s.nextAddr
  let heap1 : Heap := (pun_str, gstr) :: s.heap
  let heap2 : Heap :=
    match s.tail with
    | some t => hmodify heap1 t (fun te => { te with next := some pun_str })
    | none => heap1
  let tail' := some pun_str
  let begin' := if s.begin = none then tail' else s.begin
  (⟨pun_str⟩, { s with heap := heap2, nextAddr := pun_str + 1, begin := begin', tail := tail' })

/-- `GStr::new` on an owned/borrowed string: compute `ohash`, lock the
mutex (`.expect` = `Except.error` on a poisoned lock), search the
list from `GLIST_NODO.begin`, and on a miss create a new node. -/
def GStr.new (strn : String) (s : State) : Except String (GStr × State) :=
  if s.lockPoisoned then
    Except.error ("No se pudo bloquear el mutex")
  else
    match search_value strn (ohash strn).2 (ohash strn).1 s.heap.length s.begin s.heap with
    | some vh => Except.ok (vh.1, { s with heap := vh.2 })
    | none => Except.ok (create_gstr strn (ohash strn).2 (ohash strn).1 s)

/-- The three `StringInfo` impls of the crate: `String`, `&String`
and `&str`, each carrying the same text content. -/
inductive StringInput where
  | ownedString (s : String)
  | refString (s : String)
  | refStr (s : String)

/-- `StringInfo::get_str_ref`: the borrowed view used for the search.
All three impls return the underlying text. -/
def StringInput.get_str_ref : StringInput → String
  | .ownedString s => s
  | .refString s => s
  | .refStr s => s

/-- `StringInfo::get_str`: the owned text used on a miss.  `String`
returns itself, `&String` copies via `String::from`, `&str` copies
via `to_string`; all three yield the same content. -/
def StringInput.get_str : StringInput → String
  | .ownedString s => s
  | .refString s => s
  | .refStr s => s

/-- `GStr::new::<T>` for any `T: StringInfo`: searches with
`get_str_ref` and creates with `get_str`. -/
def GStr.newT (strn : StringInput) (s : State) : Except String (GStr × State) :=
  if s.lockPoisoned then
    Except.error ("No se pudo bloquear el mutex")
  else
    match search_value strn.get_str_ref (ohash strn.get_str_ref).2 (ohash strn.get_str_ref).1
        s.heap.length s.begin s.heap with
    | some vh => Except.ok (vh.1, { s with heap := vh.2 })
    | none => Except.ok (create_gstr strn.get_str (ohash strn.get_str_ref).2 (ohash strn.get_str_ref).1 s)

/-- `GStr::chars_count`: the cached `len` field of the node
(`none` models a dangling dereference). -/
def GStr.chars_count (g : GStr) (s : State) : Option Nat :=
  (hlookup s.heap g.value).map GStrInterner.len

/-- `impl AsRef<str> for GStr`: the content of the node. -/
def GStr.as_ref (g : GStr) (s : State) : Option String :=
  (hlookup s.heap g.value).map GStrInterner.value

/-- `impl PartialEq for GStr`, `eq`: raw pointer comparison. -/
def GStr.eq (a b : GStr) : Bool := a.value == b.value

/-- `impl PartialEq for GStr`, `ne`: raw pointer inequality. -/
def GStr.ne (a b : GStr) : Bool := a.value != b.value

/-- `impl Clone for GStr`: increment the node count (no lock is
taken), return a handle to the same address. -/
def GStr.clone (g : GStr) (s : State) : GStr × State :=
  (⟨g.value⟩, { s with heap := hmodify s.heap g.value (fun e => { e with count := e.count + 1 }) })

/-- `GStrInterner::remove`: when the count is zero, lock the mutex
(`Except.error` on a poisoned lock) and unlink the node, patching the
neighbour links or the list heads. -/
def GStrInterner.remove (a : Nat) (s : State) : Except String State :=
  match hlookup s.heap a with
  | none => Except.error ("UB: dangling pointer")
  | some e =>
    if e.count = 0 then
      if s.lockPoisoned then
        Except.error ("No se pudo bloquear el mutex")
      else
        let s1 : State :=
          match e.next with
          | some nx => { s with heap := hmodify s.heap nx (fun ne => { ne with prev := e.prev }) }
          | none => { s with tail := e.prev }
        let s2 : State :=
          match e.prev with
          | some pv => { s1 with heap := hmodify s1.heap pv (fun pe => { pe with next := e.next }) }
          | none => { s1 with begin := e.next }
        Except.ok s2
    else
      Except.ok s

/-- `impl Drop for GStr`: decrement the count (no lock; the source
decrements a `usize`, which matches `Nat` subtraction since nodes in
the registry always have a positive count); when it reaches zero,
unlink (`remove`) and deallocate (`Box::from_raw`). -/
def GStr.drop (g : GStr) (s : State) : Except String State :=
  match hlookup s.heap g.value with
  | none => Except.error ("UB: dangling pointer")
  | some e =>
    let s1 : State := { s with heap := hmodify s.heap g.value (fun x => { x with count := x.count - 1 }) }
    if e.count - 1 = 0 then
      match GStrInterner.remove g.value s1 with
      | Except.ok s2 => Except.ok { s2 with heap := hfree s2.heap g.value }
      | Except.error msg => Except.error msg
    else
      Except.ok s1

/-- Iterated `Clone`: `k` duplicates of the same handle. -/
def cloneN : Nat → GStr → State → State
  | 0, _, s => s
  | k + 1, g, s => cloneN k g (GStr.clone g s).2

/-- Iterated `Drop`: `j` releases of the same handle. -/
def dropN : Nat → GStr → State → Except String State
  | 0, _, s => Except.ok s
  | j + 1, g, s =>
    match GStr.drop g s with
    | Except.ok s' => dropN j g s'
    | Except.error msg => Except.error msg

/-- The initial state of the statics: empty list, healthy mutex. -/
def state0 : State :=
  { heap := [], nextAddr := 0, begin := none, tail := none, lockPoisoned := false }

instance {ε α : Type} [DecidableEq ε] [DecidableEq α] : DecidableEq (Except ε α) := fun a b =>
  match a, b with
  | Except.ok x, Except.ok y =>
    if h : x = y then isTrue (congrArg Except.ok h)
    else isFalse (fun hc => h (Except.ok.inj hc))
  | Except.error x, Except.error y =>
    if h : x = y then isTrue (congrArg Except.error h)
    else isFalse (fun hc => h (Except.error.inj hc))
  | Except.ok _, Except.error _ => isFalse (fun hc => Except.noConfusion hc)
  | Except.error _, Except.ok _ => isFalse (fun hc => Except.noConfusion hc)

/-- The length-and-hash contract exactly as the design document words
it (section 4.1): `h = 0, n = 0`; per character `n = n + 1` then
`h = (h * 31 + code_point_of(char)) * n` with 32-bit wraparound;
finally `h mod 486187739`, and the length is the final `n`.
Written from the specification text, to be compared with `ohash`. -/
def hash_and_length_spec (text : String) : Nat × Nat :=
  let r := text.data.foldl
    (fun hn ch => (((hn.1 * 31 + ch.toNat) * (hn.2 + 1)) % 4294967296, hn.2 + 1)) (0, 0)
  (r.1 % 486187739, r.2)


/-- Doubly-linked segment predicate.  `DSeg h l p c q n` says: walking
from pointer `c` whose node carries back-link `p`, the chain of
addresses is exactly `l`; `q` is the address of the last node of the
segment (`p` when `l` is empty) and `n` is the forward link leaving
the segment (`c` when `l` is empty).  The whole registry list of a
state `s` is `DSeg s.heap l none s.begin s.tail none`. -/
def DSeg (h : Heap) : List Nat → Option Nat → Option Nat → Option Nat → Option Nat → Prop
  | [], p, c, q, n => q = p ∧ n = c
  | a :: rest, p, c, q, n =>
    c = some a ∧ ∃ e, hlookup h a = some e ∧ e.prev = p ∧ DSeg h rest (some a) e.next q n

/-- Structural well-formedness of the registry (the invariant of
section 3 of the design): some address list `addrs` is the chain from
`begin` to `tail`, fully linked forwards and backwards with no exit
links; the chain covers exactly the allocated nodes (no orphans, no
duplicates); every allocated node has a positive count and an address
below the allocator mark. -/
def Wf (s : State) : Prop :=
  ∃ addrs : List Nat,
    DSeg s.heap addrs none s.begin s.tail none ∧
    addrs.Perm (heapKeys s.heap) ∧
    (heapKeys s.heap).Nodup ∧
    (∀ a e, hlookup s.heap a = some e → 1 ≤ e.count ∧ a < s.nextAddr)

/-- Every node caches exactly the fingerprint and length that `ohash`
yields on its content. -/
def coherent (s : State) : Prop :=
  ∀ a e, hlookup s.heap a = some e → e.hash = (ohash e.value).1 ∧ e.len = (ohash e.value).2

/-- Contents of live nodes are pairwise distinct (the dedup
invariant). -/
def distinctContents (s : State) : Prop :=
  ∀ a e b f, hlookup s.heap a = some e → hlookup s.heap b = some f →
    e.value = f.value → a = b

/-- The full registry invariant. -/
def RegInv (s : State) : Prop := Wf s ∧ coherent s ∧ distinctContents s

def stateA : State :=
  { heap := [(0, ⟨"a", 1, 1, 97, none, none⟩)], nextAddr := 1, begin := some 0,
    tail := some 0, lockPoisoned := false }

def stateAB : State :=
  { heap := [(1, ⟨"b", 1, 1, 98, none, some 0⟩), (0, ⟨"a", 1, 1, 97, some 1, none⟩)],
    nextAddr := 2, begin := some 0, tail := some 1, lockPoisoned := false }

def c4state : State :=
  { heap := [(0, ⟨"a", 1, 0, 97, none, none⟩)], nextAddr := 1, begin := some 0,
    tail := some 0, lockPoisoned := true }

def c7state : State :=
  { heap := [(0, ⟨"añ😀", 3, 1, 989664, none, none⟩)], nextAddr := 1, begin := some 0,
    tail := some 0, lockPoisoned := false }

def c8state : State :=
  { heap := [(0, ⟨"a", 1, 2, 97, none, none⟩)], nextAddr := 1, begin := some 0,
    tail := some 0, lockPoisoned := true }

def c6state₂ : State :=
  { heap := [], nextAddr := 1, begin := none, tail := none, lockPoisoned := false }

def c6state₃ : State :=
  { heap := [(1, ⟨"a", 1, 1, 97, none, none⟩)], nextAddr := 2, begin := some 1,
    tail := some 1, lockPoisoned := false }

theorem ohashAux_eq_foldl (l : List Char) (h n : Nat) :
    ohashAux l h n =
      l.foldl (fun hn ch => (((hn.1 * 31 + ch.toNat) * (hn.2 + 1)) % 4294967296, hn.2 + 1)) (h, n) := by
  induction l generalizing h n with
  | nil => rfl
  | cons ch rest ih =>
    show ohashAux rest _ _ = _
    rw [ih]
    have hstep : ((((h * CHAR_S) % U32 + ch.toNat) % U32) * ((n + 1) % U32)) % U32
        = ((h * 31 + ch.toNat) * (n + 1)) % 4294967296 := by
      show ((((h * 31) % 4294967296 + ch.toNat) % 4294967296) * ((n + 1) % 4294967296)) % 4294967296
        = ((h * 31 + ch.toNat) * (n + 1)) % 4294967296
      rw [Nat.mod_add_mod, ← Nat.mul_mod]
    rw [hstep]
    rfl

theorem ohashAux_len (l : List Char) (h n : Nat) : (ohashAux l h n).2 = n + l.length := by
  induction l generalizing h n with
  | nil => simp [ohashAux]
  | cons ch rest ih =>
    show (ohashAux rest _ (n + 1)).2 = _
    rw [ih]
    simp [List.length_cons]
    omega

theorem ohash_len (c : String) : (ohash c).2 = c.data.length := by
  show (ohashAux c.data 0 0).2 = c.data.length
  rw [ohashAux_len]
  omega

theorem compare_eq_true_iff (e : GStrInterner) (hash len : Nat) (strn : String) :
    e.compare hash len strn = true ↔ e.hash = hash ∧ e.len = len ∧ e.value = strn := by
  simp [GStrInterner.compare, Bool.and_eq_true, and_assoc]

theorem hmodify_cons_eq (e : GStrInterner) (t : Heap) (a : Nat)
    (f : GStrInterner → GStrInterner) :
    hmodify ((a, e) :: t) a f = (a, f e) :: hmodify t a f := by
  simp [hmodify]

theorem hmodify_cons_ne (k : Nat) (e : GStrInterner) (t : Heap) (a : Nat)
    (f : GStrInterner → GStrInterner) (hka : k ≠ a) :
    hmodify ((k, e) :: t) a f = (k, e) :: hmodify t a f := by
  simp only [hmodify, List.map_cons, if_neg hka]

theorem hlookup_cons_eq (k : Nat) (e : GStrInterner) (t : Heap) :
    hlookup ((k, e) :: t) k = some e := by
  rw [hlookup, if_pos rfl]

theorem hlookup_cons_ne (k : Nat) (e : GStrInterner) (t : Heap) (b : Nat) (hbk : b ≠ k) :
    hlookup ((k, e) :: t) b = hlookup t b := by
  rw [hlookup, if_neg hbk]

theorem hlookup_hmodify (h : Heap) (a b : Nat) (f : GStrInterner → GStrInterner) :
    hlookup (hmodify h a f) b = if b = a then (hlookup h b).map f else hlookup h b := by
  induction h with
  | nil => simp [hmodify, hlookup]
  | cons p t ih =>
    obtain ⟨k, e⟩ := p
    by_cases hka : k = a
    · subst hka
      rw [hmodify_cons_eq]
      by_cases hbk : b = k
      · subst hbk
        rw [hlookup_cons_eq, hlookup_cons_eq, if_pos rfl]
        rfl
      · rw [hlookup_cons_ne _ _ _ _ hbk, hlookup_cons_ne _ _ _ _ hbk, ih]
    · rw [hmodify_cons_ne _ _ _ _ _ hka]
      by_cases hbk : b = k
      · subst hbk
        have hba : ¬ b = a := hka
        rw [hlookup_cons_eq, hlookup_cons_eq, if_neg hba]
      · rw [hlookup_cons_ne _ _ _ _ hbk, hlookup_cons_ne _ _ _ _ hbk, ih]

theorem heapKeys_cons (k : Nat) (e : GStrInterner) (t : Heap) :
    heapKeys ((k, e) :: t) = k :: heapKeys t := rfl

theorem heapKeys_hmodify (h : Heap) (a : Nat) (f : GStrInterner → GStrInterner) :
    heapKeys (hmodify h a f) = heapKeys h := by
  induction h with
  | nil => rfl
  | cons p t ih =>
    obtain ⟨k, e⟩ := p
    by_cases hka : k = a
    · subst hka
      rw [hmodify_cons_eq, heapKeys_cons, heapKeys_cons, ih]
    · rw [hmodify_cons_ne _ _ _ _ _ hka, heapKeys_cons, heapKeys_cons, ih]

theorem hfree_cons_eq (e : GStrInterner) (t : Heap) (a : Nat) :
    hfree ((a, e) :: t) a = hfree t a := by
  simp [hfree, List.filter_cons]

theorem hfree_cons_ne (k : Nat) (e : GStrInterner) (t : Heap) (a : Nat) (hka : k ≠ a) :
    hfree ((k, e) :: t) a = (k, e) :: hfree t a := by
  simp [hfree, List.filter_cons, bne_iff_ne, hka]

theorem hlookup_hfree (h : Heap) (a b : Nat) :
    hlookup (hfree h a) b = if b = a then none else hlookup h b := by
  induction h with
  | nil => simp [hfree, hlookup]
  | cons p t ih =>
    obtain ⟨k, e⟩ := p
    by_cases hka : k = a
    · subst hka
      rw [hfree_cons_eq, ih]
      by_cases hbk : b = k
      · subst hbk
        rw [if_pos rfl, if_pos rfl]
      · rw [if_neg hbk, if_neg hbk, hlookup_cons_ne _ _ _ _ hbk]
    · rw [hfree_cons_ne _ _ _ _ hka]
      by_cases hbk : b = k
      · subst hbk
        have hba : ¬ b = a := hka
        rw [hlookup_cons_eq, hlookup_cons_eq, if_neg hba]
      · rw [hlookup_cons_ne _ _ _ _ hbk, hlookup_cons_ne _ _ _ _ hbk, ih]

theorem heapKeys_hfree (h : Heap) (a : Nat) :
    heapKeys (hfree h a) = (heapKeys h).filter (fun k => k != a) := by
  induction h with
  | nil => rfl
  | cons p t ih =>
    obtain ⟨k, e⟩ := p
    by_cases hka : k = a
    · subst hka
      rw [hfree_cons_eq, ih, heapKeys_cons, List.filter_cons]
      simp
    · rw [hfree_cons_ne _ _ _ _ hka, heapKeys_cons, heapKeys_cons, ih, List.filter_cons]
      simp [bne_iff_ne, hka]

theorem mem_keys_of_hlookup (h : Heap) (a : Nat) (e : GStrInterner)
    (hl : hlookup h a = some e) : a ∈ heapKeys h := by
  induction h with
  | nil => simp [hlookup] at hl
  | cons p t ih =>
    obtain ⟨k, v⟩ := p
    rw [heapKeys_cons]
    by_cases hak : a = k
    · subst hak
      exact List.mem_cons_self _ _
    · rw [hlookup_cons_ne _ _ _ _ hak] at hl
      exact List.mem_cons_of_mem _ (ih hl)

theorem hlookup_mem (h : Heap) (a : Nat) (e : GStrInterner)
    (hl : hlookup h a = some e) : (a, e) ∈ h := by
  induction h with
  | nil => simp [hlookup] at hl
  | cons p t ih =>
    obtain ⟨k, v⟩ := p
    by_cases hak : a = k
    · subst hak
      rw [hlookup_cons_eq] at hl
      cases hl
      exact List.mem_cons_self _ _
    · rw [hlookup_cons_ne _ _ _ _ hak] at hl
      exact List.mem_cons_of_mem _ (ih hl)

theorem hlookup_of_mem (h : Heap) (a : Nat) (e : GStrInterner)
    (hnd : (heapKeys h).Nodup) (hm : (a, e) ∈ h) : hlookup h a = some e := by
  induction h with
  | nil => simp at hm
  | cons p t ih =>
    obtain ⟨k, v⟩ := p
    rw [heapKeys_cons, List.nodup_cons] at hnd
    rcases List.mem_cons.mp hm with hh | ht
    · cases hh
      rw [hlookup_cons_eq]
    · have hak : a ≠ k := by
        intro hc
        subst hc
        exact hnd.1 (List.mem_map.mpr ⟨(a, e), ht, rfl⟩)
      rw [hlookup_cons_ne _ _ _ _ hak]
      exact ih hnd.2 ht

theorem exists_hlookup_of_mem_keys (h : Heap) (a : Nat)
    (hm : a ∈ heapKeys h) : ∃ e, hlookup h a = some e := by
  induction h with
  | nil => simp [heapKeys] at hm
  | cons p t ih =>
    obtain ⟨k, v⟩ := p
    by_cases hak : a = k
    · subst hak
      exact ⟨v, hlookup_cons_eq _ _ _⟩
    · rw [heapKeys_cons, List.mem_cons] at hm
      rcases hm with hh | ht
      · exact absurd hh hak
      · obtain ⟨e, he⟩ := ih ht
        exact ⟨e, by rw [hlookup_cons_ne _ _ _ _ hak]; exact he⟩


theorem dseg_frame (h h' : Heap) (l : List Nat) (p c q n : Option Nat)
    (hagree : ∀ a ∈ l, hlookup h' a = hlookup h a)
    (hseg : DSeg h l p c q n) : DSeg h' l p c q n := by
  induction l generalizing p c with
  | nil => exact hseg
  | cons a rest ih =>
    obtain ⟨hc, e, he, hp, hrest⟩ := hseg
    refine ⟨hc, e, ?_, hp, ?_⟩
    · rw [hagree a (List.mem_cons_self _ _)]
      exact he
    · exact ih (some a) e.next (fun x hx => hagree x (List.mem_cons_of_mem _ hx)) hrest

theorem dseg_append (h : Heap) (l₁ l₂ : List Nat) (p c q n : Option Nat) :
    DSeg h (l₁ ++ l₂) p c q n ↔ ∃ q₁ c₁, DSeg h l₁ p c q₁ c₁ ∧ DSeg h l₂ q₁ c₁ q n := by
  induction l₁ generalizing p c with
  | nil =>
    constructor
    · intro hseg
      exact ⟨p, c, ⟨rfl, rfl⟩, hseg⟩
    · rintro ⟨q₁, c₁, ⟨hq, hc⟩, hseg⟩
      subst hq
      subst hc
      exact hseg
  | cons a rest ih =>
    constructor
    · rintro ⟨hc, e, he, hp, hrest⟩
      obtain ⟨q₁, c₁, h₁, h₂⟩ := (ih (some a) e.next).mp hrest
      exact ⟨q₁, c₁, ⟨hc, e, he, hp, h₁⟩, h₂⟩
    · rintro ⟨q₁, c₁, ⟨hc, e, he, hp, h₁⟩, h₂⟩
      exact ⟨hc, e, he, hp, (ih (some a) e.next).mpr ⟨q₁, c₁, h₁, h₂⟩⟩

theorem dseg_q_mem (h : Heap) (l : List Nat) (p c n : Option Nat) (v : Nat)
    (hseg : DSeg h l p c (some v) n) : (l = [] ∧ p = some v) ∨ v ∈ l := by
  induction l generalizing p c with
  | nil =>
    obtain ⟨hq, _⟩ := hseg
    exact Or.inl ⟨rfl, hq.symm⟩
  | cons a rest ih =>
    obtain ⟨hc, e, he, hp, hrest⟩ := hseg
    rcases ih (some a) e.next hrest with ⟨hnil, hpv⟩ | hmem
    · cases hpv
      exact Or.inr (List.mem_cons_self _ _)
    · exact Or.inr (List.mem_cons_of_mem _ hmem)

theorem dseg_nonempty_q (h : Heap) (a : Nat) (rest : List Nat) (p c q n : Option Nat)
    (hseg : DSeg h (a :: rest) p c q n) : ∃ v, q = some v := by
  induction rest generalizing a p c with
  | nil =>
    obtain ⟨_, e, _, _, hq, _⟩ := hseg
    exact ⟨a, hq⟩
  | cons b rest ih =>
    obtain ⟨_, e, _, _, hrest⟩ := hseg
    exact ih b (some a) e.next hrest

theorem dseg_mem_lookup (h : Heap) (l : List Nat) (p c q n : Option Nat) (a : Nat)
    (hseg : DSeg h l p c q n) (hm : a ∈ l) : ∃ e, hlookup h a = some e := by
  induction l generalizing p c with
  | nil => simp at hm
  | cons b rest ih =>
    obtain ⟨hc, e, he, hp, hrest⟩ := hseg
    rcases List.mem_cons.mp hm with hh | ht
    · subst hh
      exact ⟨e, he⟩
    · exact ih (some b) e.next hrest ht

theorem dseg_links_preserved (h : Heap) (l : List Nat) (p c q n : Option Nat) (a : Nat)
    (f : GStrInterner → GStrInterner)
    (hf : ∀ e, (f e).prev = e.prev ∧ (f e).next = e.next)
    (hseg : DSeg h l p c q n) : DSeg (hmodify h a f) l p c q n := by
  induction l generalizing p c with
  | nil => exact hseg
  | cons b rest ih =>
    obtain ⟨hc, e, he, hp, hrest⟩ := hseg
    by_cases hba : b = a
    · subst hba
      refine ⟨hc, f e, ?_, ?_, ?_⟩
      · rw [hlookup_hmodify, if_pos rfl, he]
        rfl
      · rw [(hf e).1]
        exact hp
      · rw [(hf e).2]
        exact ih (some b) e.next hrest
    · refine ⟨hc, e, ?_, hp, ih (some b) e.next hrest⟩
      rw [hlookup_hmodify, if_neg hba]
      exact he

theorem dseg_patch_last_next (h : Heap) (l : List Nat) (p c n m : Option Nat) (v : Nat)
    (hne : l ≠ []) (hnd : l.Nodup)
    (hseg : DSeg h l p c (some v) n) :
    DSeg (hmodify h v (fun e => { e with next := m })) l p c (some v) m := by
  induction l generalizing p c with
  | nil => exact absurd rfl hne
  | cons a rest ih =>
    obtain ⟨hc, e, he, hp, hrest⟩ := hseg
    rcases List.nodup_cons.mp hnd with ⟨hna, hndr⟩
    cases rest with
    | nil =>
      obtain ⟨hq, hn⟩ := hrest
      cases hq
      refine ⟨hc, { e with next := m }, ?_, hp, rfl, rfl⟩
      rw [hlookup_hmodify, if_pos rfl, he]
      rfl
    | cons b rest' =>
      have hvmem : v ∈ b :: rest' := by
        rcases dseg_q_mem h (b :: rest') (some a) e.next n v hrest with ⟨hnil, _⟩ | hmem
        · exact absurd hnil (by simp)
        · exact hmem
      have hav : a ≠ v := by
        intro hc'
        subst hc'
        exact hna hvmem
      refine ⟨hc, e, ?_, hp, ih (some a) e.next (by simp) hndr hrest⟩
      rw [hlookup_hmodify, if_neg hav]
      exact he

theorem dseg_patch_head_prev (h : Heap) (b : Nat) (l : List Nat) (p p' q n : Option Nat)
    (hnb : b ∉ l)
    (hseg : DSeg h (b :: l) p (some b) q n) :
    DSeg (hmodify h b (fun e => { e with prev := p' })) (b :: l) p' (some b) q n := by
  obtain ⟨hc, e, he, hp, hrest⟩ := hseg
  refine ⟨rfl, { e with prev := p' }, ?_, rfl, ?_⟩
  · rw [hlookup_hmodify, if_pos rfl, he]
    rfl
  · show DSeg _ l (some b) e.next q n
    refine dseg_frame h _ l (some b) e.next q n ?_ hrest
    intro x hx
    have hxb : x ≠ b := by
      intro hc'
      subst hc'
      exact hnb hx
    rw [hlookup_hmodify, if_neg hxb]





theorem search_value_step_none (strn : String) (len hash fuel : Nat) (a : Nat) (h : Heap)
    (hl : hlookup h a = none) :
    search_value strn len hash (fuel + 1) (some a) h = none := by
  rw [search_value, hl]

theorem search_value_step (strn : String) (len hash fuel : Nat) (a : Nat) (h : Heap)
    (e : GStrInterner) (hl : hlookup h a = some e) :
    search_value strn len hash (fuel + 1) (some a) h =
      if e.compare hash len strn then
        some (⟨a⟩, hmodify h a (fun x => { x with count := x.count + 1 }))
      else search_value strn len hash fuel e.next h := by
  rw [search_value, hl]

theorem search_some_spec (strn : String) (len hash : Nat) :
    ∀ (fuel : Nat) (c : Option Nat) (h : Heap) (g : GStr) (h' : Heap),
    search_value strn len hash fuel c h = some (g, h') →
    ∃ e, hlookup h g.value = some e ∧ e.compare hash len strn = true ∧
      h' = hmodify h g.value (fun x => { x with count := x.count + 1 }) := by
  intro fuel
  induction fuel with
  | zero =>
    intro c h g h' hres
    simp [search_value] at hres
  | succ f ih =>
    intro c h g h' hres
    cases c with
    | none => simp [search_value] at hres
    | some a =>
      cases hl : hlookup h a with
      | none =>
        rw [search_value_step_none _ _ _ _ _ _ hl] at hres
        cases hres
      | some e =>
        rw [search_value_step _ _ _ _ _ _ _ hl] at hres
        by_cases hcmp : e.compare hash len strn = true
        · rw [if_pos hcmp] at hres
          injection hres with hpair
          injection hpair with hg hh
          cases hg
          cases hh
          exact ⟨e, hl, hcmp, rfl⟩
        · rw [if_neg hcmp] at hres
          exact ih e.next h g h' hres

theorem search_none_spec (strn : String) (len hash : Nat) (h : Heap) (q : Option Nat) :
    ∀ (l : List Nat) (p c : Option Nat) (fuel : Nat),
    DSeg h l p c q none → l.length ≤ fuel →
    search_value strn len hash fuel c h = none →
    ∀ a ∈ l, ∀ e, hlookup h a = some e → e.compare hash len strn = false := by
  intro l
  induction l with
  | nil =>
    intro p c fuel _ _ _ a ha
    simp at ha
  | cons b rest ih =>
    intro p c fuel hseg hfuel hres a ha e he
    obtain ⟨hc, e₀, he₀, hp, hrest⟩ := hseg
    subst hc
    cases fuel with
    | zero => simp at hfuel
    | succ f =>
      rw [search_value_step _ _ _ _ _ _ _ he₀] at hres
      by_cases hcmp : e₀.compare hash len strn = true
      · rw [if_pos hcmp] at hres
        cases hres
      · rw [if_neg hcmp] at hres
        rcases List.mem_cons.mp ha with hh | ht
        · subst hh
          rw [he₀] at he
          cases he
          exact Bool.eq_false_iff.mpr hcmp
        · exact ih (some b) e₀.next f hrest (by simpa using Nat.le_of_succ_le_succ hfuel) hres a ht e he

theorem new_cases (strn : String) (s : State) (g : GStr) (s' : State)
    (hok : GStr.new strn s = Except.ok (g, s')) :
    s.lockPoisoned = false ∧
    ((∃ e, hlookup s.heap g.value = some e ∧
        e.compare (ohash strn).1 (ohash strn).2 strn = true ∧
        s' = { s with heap := hmodify s.heap g.value (fun x => { x with count := x.count + 1 }) }) ∨
     (search_value strn (ohash strn).2 (ohash strn).1 s.heap.length s.begin s.heap = none ∧
        g = ⟨s.nextAddr⟩ ∧ s' = (create_gstr strn (ohash strn).2 (ohash strn).1 s).2)) := by
  unfold GStr.new at hok
  by_cases hp : s.lockPoisoned = true
  · rw [if_pos hp] at hok
    cases hok
  · rw [if_neg hp] at hok
    refine ⟨by simpa using hp, ?_⟩
    cases hs : search_value strn (ohash strn).2 (ohash strn).1 s.heap.length s.begin s.heap with
    | some vh =>
      rw [hs] at hok
      injection hok with hpair
      injection hpair with hg hs'
      subst hg
      subst hs'
      obtain ⟨e, he, hcmp, hheap⟩ :=
        search_some_spec strn (ohash strn).2 (ohash strn).1 s.heap.length s.begin s.heap vh.1 vh.2 hs
      exact Or.inl ⟨e, he, hcmp, by rw [hheap]⟩
    | none =>
      rw [hs] at hok
      injection hok with hpair
      exact Or.inr ⟨rfl, (congrArg Prod.fst hpair).symm, (congrArg Prod.snd hpair).symm⟩


theorem dseg_snoc_none (h : Heap) (l : List Nat) (bg : Option Nat) (a : Nat)
    (gstr : GStrInterner)
    (hseg : DSeg h l none bg none none)
    (hprev : gstr.prev = none) (hnext : gstr.next = none) :
    l = [] ∧ bg = none ∧
    DSeg ((a, gstr) :: h) (l ++ [a]) none (some a) (some a) none := by
  cases l with
  | cons b rest =>
    obtain ⟨v, hv⟩ := dseg_nonempty_q h b rest none bg none none hseg
    cases hv
  | nil =>
    obtain ⟨hq, hn⟩ := hseg
    refine ⟨rfl, hn.symm, ?_⟩
    refine ⟨rfl, gstr, hlookup_cons_eq _ _ _, ?_, rfl, hnext.symm⟩
    rw [hprev]

theorem dseg_snoc_some (h : Heap) (l : List Nat) (bg : Option Nat) (t a : Nat)
    (gstr : GStrInterner)
    (hseg : DSeg h l none bg (some t) none)
    (hnd : l.Nodup) (hfa : a ∉ l)
    (hprev : gstr.prev = some t) (hnext : gstr.next = none) :
    l ≠ [] ∧
    DSeg (hmodify ((a, gstr) :: h) t (fun te => { te with next := some a }))
      (l ++ [a]) none bg (some a) none := by
  cases l with
  | nil =>
    obtain ⟨hq, _⟩ := hseg
    cases hq
  | cons b rest =>
    refine ⟨by simp, ?_⟩
    have htmem : t ∈ b :: rest := by
      rcases dseg_q_mem h (b :: rest) none bg none t hseg with ⟨_, hp⟩ | hmem
      · cases hp
      · exact hmem
    have hat : a ≠ t := by
      intro hc
      subst hc
      exact hfa htmem
    have hA₁ : DSeg ((a, gstr) :: h) (b :: rest) none bg (some t) none := by
      refine dseg_frame h _ _ none bg (some t) none ?_ hseg
      intro x hx
      have hxa : x ≠ a := by
        intro hc
        subst hc
        exact hfa hx
      exact hlookup_cons_ne _ _ _ _ hxa
    have hA₂ := dseg_patch_last_next ((a, gstr) :: h) (b :: rest) none bg none (some a) t
      (by simp) hnd hA₁
    refine (dseg_append _ (b :: rest) [a] none bg (some a) none).mpr
      ⟨some t, some a, hA₂, ?_⟩
    refine ⟨rfl, gstr, ?_, ?_, rfl, hnext.symm⟩
    · rw [hlookup_hmodify, if_neg hat, hlookup_cons_eq]
    · rw [hprev]

theorem reginv_bump (s : State) (a : Nat) (hInv : RegInv s) :
    RegInv { s with heap := hmodify s.heap a (fun x => { x with count := x.count + 1 }) } := by
  obtain ⟨⟨addrs, hseg, hperm, hnd, hbnd⟩, hcoh, hdis⟩ := hInv
  refine ⟨⟨addrs, ?_, ?_, ?_, ?_⟩, ?_, ?_⟩
  · exact dseg_links_preserved s.heap addrs none s.begin s.tail none a
      (fun x => { x with count := x.count + 1 }) (fun e => ⟨rfl, rfl⟩) hseg
  · show addrs.Perm (heapKeys (hmodify s.heap a (fun x => { x with count := x.count + 1 })))
    rw [heapKeys_hmodify]
    exact hperm
  · show (heapKeys (hmodify s.heap a (fun x => { x with count := x.count + 1 }))).Nodup
    rw [heapKeys_hmodify]
    exact hnd
  · intro b e hb
    show 1 ≤ e.count ∧ b < s.nextAddr
    rw [show ({ s with heap := hmodify s.heap a (fun x => { x with count := x.count + 1 }) } : State).heap
        = hmodify s.heap a (fun x => { x with count := x.count + 1 }) from rfl,
      hlookup_hmodify] at hb
    by_cases hba : b = a
    · rw [if_pos hba] at hb
      cases he₀ : hlookup s.heap b with
      | none => rw [he₀] at hb; cases hb
      | some e₀ =>
        rw [he₀] at hb
        injection hb with hb
        obtain ⟨hc, hlt⟩ := hbnd b e₀ he₀
        subst hb
        exact ⟨Nat.le_succ_of_le hc, hlt⟩
    · rw [if_neg hba] at hb
      exact hbnd b e hb
  · intro b e hb
    rw [show ({ s with heap := hmodify s.heap a (fun x => { x with count := x.count + 1 }) } : State).heap
        = hmodify s.heap a (fun x => { x with count := x.count + 1 }) from rfl,
      hlookup_hmodify] at hb
    by_cases hba : b = a
    · rw [if_pos hba] at hb
      cases he₀ : hlookup s.heap b with
      | none => rw [he₀] at hb; cases hb
      | some e₀ =>
        rw [he₀] at hb
        injection hb with hb
        subst hb
        exact hcoh b e₀ he₀
    · rw [if_neg hba] at hb
      exact hcoh b e hb
  · intro b e c f hb hc hval
    rw [show ({ s with heap := hmodify s.heap a (fun x => { x with count := x.count + 1 }) } : State).heap
        = hmodify s.heap a (fun x => { x with count := x.count + 1 }) from rfl,
      hlookup_hmodify] at hb hc
    have hb' : ∃ e₀, hlookup s.heap b = some e₀ ∧ e₀.value = e.value := by
      by_cases hba : b = a
      · rw [if_pos hba] at hb
        cases he₀ : hlookup s.heap b with
        | none => rw [he₀] at hb; cases hb
        | some e₀ =>
          rw [he₀] at hb
          injection hb with hb
          exact ⟨e₀, rfl, by rw [← hb]⟩
      · rw [if_neg hba] at hb
        exact ⟨e, hb, rfl⟩
    have hc' : ∃ f₀, hlookup s.heap c = some f₀ ∧ f₀.value = f.value := by
      by_cases hca : c = a
      · rw [if_pos hca] at hc
        cases hf₀ : hlookup s.heap c with
        | none => rw [hf₀] at hc; cases hc
        | some f₀ =>
          rw [hf₀] at hc
          injection hc with hc
          exact ⟨f₀, rfl, by rw [← hc]⟩
      · rw [if_neg hca] at hc
        exact ⟨f, hc, rfl⟩
    obtain ⟨e₀, he₀, hev⟩ := hb'
    obtain ⟨f₀, hf₀, hfv⟩ := hc'
    exact hdis b e₀ c f₀ he₀ hf₀ (by rw [hev, hfv, hval])


theorem create_gstr_fst (vstr : String) (len hash : Nat) (s : State) :
    (create_gstr vstr len hash s).1 = ⟨s.nextAddr⟩ := rfl

theorem create_gstr_heap (vstr : String) (len hash : Nat) (s : State) :
    (create_gstr vstr len hash s).2.heap =
      (match s.tail with
       | some t =>
         hmodify ((s.nextAddr, ⟨vstr, len, 1, hash, none, s.tail⟩) :: s.heap) t
           (fun te => { te with next := some s.nextAddr })
       | none => (s.nextAddr, ⟨vstr, len, 1, hash, none, s.tail⟩) :: s.heap) := rfl

theorem create_gstr_nextAddr (vstr : String) (len hash : Nat) (s : State) :
    (create_gstr vstr len hash s).2.nextAddr = s.nextAddr + 1 := rfl

theorem create_gstr_begin (vstr : String) (len hash : Nat) (s : State) :
    (create_gstr vstr len hash s).2.begin =
      if s.begin = none then some s.nextAddr else s.begin := rfl

theorem create_gstr_tail (vstr : String) (len hash : Nat) (s : State) :
    (create_gstr vstr len hash s).2.tail = some s.nextAddr := rfl

theorem create_gstr_lock (vstr : String) (len hash : Nat) (s : State) :
    (create_gstr vstr len hash s).2.lockPoisoned = s.lockPoisoned := rfl

theorem fresh_not_mem (s : State)
    (hbnd : ∀ a e, hlookup s.heap a = some e → 1 ≤ e.count ∧ a < s.nextAddr) :
    s.nextAddr ∉ heapKeys s.heap := by
  intro hmem
  obtain ⟨e, he⟩ := exists_hlookup_of_mem_keys _ _ hmem
  exact absurd (hbnd _ _ he).2 (lt_irrefl _)

theorem create_keys (s : State) (vstr : String) (len hash : Nat) :
    heapKeys (create_gstr vstr len hash s).2.heap = s.nextAddr :: heapKeys s.heap := by
  cases htl : s.tail with
  | none => simp only [create_gstr_heap, htl, heapKeys_cons]
  | some t =>
    simp only [create_gstr_heap, htl]
    rw [heapKeys_hmodify, heapKeys_cons]

theorem create_lookup (s : State) (vstr : String) (len hash : Nat) (b : Nat)
    (hna : ∀ t, s.tail = some t → t ≠ s.nextAddr) :
    hlookup (create_gstr vstr len hash s).2.heap b =
      if b = s.nextAddr then some ⟨vstr, len, 1, hash, none, s.tail⟩
      else if s.tail = some b then
        (hlookup s.heap b).map (fun te => { te with next := some s.nextAddr })
      else hlookup s.heap b := by
  cases htl : s.tail with
  | none =>
    simp only [create_gstr_heap, htl]
    by_cases hb : b = s.nextAddr
    · subst hb
      rw [if_pos rfl, hlookup_cons_eq]
    · rw [if_neg hb, hlookup_cons_ne _ _ _ _ hb]
      simp
  | some t =>
    have htna : t ≠ s.nextAddr := hna t htl
    simp only [create_gstr_heap, htl]
    rw [hlookup_hmodify]
    by_cases hb : b = s.nextAddr
    · subst hb
      have hbt : ¬ s.nextAddr = t := fun hc => htna hc.symm
      rw [if_neg hbt, hlookup_cons_eq, if_pos rfl]
    · rw [hlookup_cons_ne _ _ _ _ hb, if_neg hb]
      by_cases hbt : b = t
      · subst hbt
        rw [if_pos rfl, if_pos rfl]
      · have hsb : ¬ (some t = some b) := fun hc => hbt (Option.some.inj hc).symm
        rw [if_neg hbt, if_neg hsb]

theorem tail_ne_fresh (s : State) (addrs : List Nat)
    (hseg : DSeg s.heap addrs none s.begin s.tail none)
    (hfreshl : s.nextAddr ∉ addrs) :
    ∀ t, s.tail = some t → t ≠ s.nextAddr := by
  intro t htl hc
  subst hc
  rcases dseg_q_mem s.heap addrs none s.begin none s.nextAddr (htl ▸ hseg) with ⟨_, hp⟩ | hmem
  · cases hp
  · exact hfreshl hmem

theorem create_lookup_cases (s : State) (vstr : String) (len hash : Nat)
    (hna : ∀ t, s.tail = some t → t ≠ s.nextAddr) :
    ∀ b e', hlookup (create_gstr vstr len hash s).2.heap b = some e' →
      (b = s.nextAddr ∧ e' = ⟨vstr, len, 1, hash, none, s.tail⟩) ∨
      (∃ e, hlookup s.heap b = some e ∧ e'.value = e.value ∧ e'.len = e.len ∧
        e'.hash = e.hash ∧ e'.count = e.count) := by
  intro b e' hb
  rw [create_lookup s vstr len hash b hna] at hb
  by_cases hbna : b = s.nextAddr
  · rw [if_pos hbna] at hb
    exact Or.inl ⟨hbna, (Option.some.inj hb).symm⟩
  · rw [if_neg hbna] at hb
    by_cases hbt : s.tail = some b
    · rw [if_pos hbt] at hb
      cases he : hlookup s.heap b with
      | none => rw [he] at hb; cases hb
      | some e =>
        rw [he] at hb
        injection hb with hb
        exact Or.inr ⟨e, rfl, by rw [← hb], by rw [← hb], by rw [← hb], by rw [← hb]⟩
    · rw [if_neg hbt] at hb
      exact Or.inr ⟨e', hb, rfl, rfl, rfl, rfl⟩

theorem reginv_create (s : State) (vstr : String) (len hash : Nat) (hInv : RegInv s)
    (hlen : len = (ohash vstr).2) (hhash : hash = (ohash vstr).1)
    (hnov : ∀ a e, hlookup s.heap a = some e → e.value ≠ vstr) :
    RegInv (create_gstr vstr len hash s).2 := by
  obtain ⟨⟨addrs, hseg, hperm, hnd, hbnd⟩, hcoh, hdis⟩ := hInv
  have hfresh : s.nextAddr ∉ heapKeys s.heap := fresh_not_mem s hbnd
  have hfreshl : s.nextAddr ∉ addrs := fun hc => hfresh (hperm.mem_iff.mp hc)
  have hndl : addrs.Nodup := hperm.nodup_iff.mpr hnd
  have hna : ∀ t, s.tail = some t → t ≠ s.nextAddr := tail_ne_fresh s addrs hseg hfreshl
  have hlook := create_lookup_cases s vstr len hash hna
  refine ⟨⟨addrs ++ [s.nextAddr], ?_, ?_, ?_, ?_⟩, ?_, ?_⟩
  · show DSeg (create_gstr vstr len hash s).2.heap (addrs ++ [s.nextAddr]) none
      (create_gstr vstr len hash s).2.begin (create_gstr vstr len hash s).2.tail none
    rw [create_gstr_begin, create_gstr_tail]
    cases htl : s.tail with
    | none =>
      obtain ⟨hlnil, hbg, hsegnew⟩ := dseg_snoc_none s.heap addrs s.begin s.nextAddr
        ⟨vstr, len, 1, hash, none, none⟩ (htl ▸ hseg) rfl rfl
      rw [if_pos hbg]
      have hheap : (create_gstr vstr len hash s).2.heap =
          (s.nextAddr, ⟨vstr, len, 1, hash, none, none⟩) :: s.heap := by
        rw [create_gstr_heap, htl]
      rw [hheap]
      exact hsegnew
    | some t =>
      obtain ⟨hlne, hsegnew⟩ := dseg_snoc_some s.heap addrs s.begin t s.nextAddr
        ⟨vstr, len, 1, hash, none, some t⟩ (htl ▸ hseg) hndl hfreshl rfl rfl
      have hbgsome : ∃ b, s.begin = some b := by
        cases haddrs : addrs with
        | nil => exact absurd haddrs hlne
        | cons b rest =>
          exact ⟨b, (haddrs ▸ (htl ▸ hseg) : DSeg s.heap (b :: rest) none s.begin (some t) none).1⟩
      obtain ⟨b, hbg⟩ := hbgsome
      have hbgne : ¬ s.begin = none := by rw [hbg]; simp
      rw [if_neg hbgne]
      have hheap : (create_gstr vstr len hash s).2.heap =
          hmodify ((s.nextAddr, ⟨vstr, len, 1, hash, none, some t⟩) :: s.heap) t
            (fun te => { te with next := some s.nextAddr }) := by
        rw [create_gstr_heap, htl]
      rw [hheap]
      exact hsegnew
  · rw [create_keys]
    exact (List.perm_append_singleton _ _).trans (hperm.cons _)
  · rw [create_keys]
    exact List.nodup_cons.mpr ⟨hfresh, hnd⟩
  · intro b e' hb
    rw [create_gstr_nextAddr]
    rcases hlook b e' hb with ⟨hbna, he'⟩ | ⟨e, he, _, _, _, hcnt⟩
    · subst hbna
      subst he'
      exact ⟨Nat.le_refl 1, Nat.lt_succ_self _⟩
    · obtain ⟨hc, hlt⟩ := hbnd b e he
      rw [hcnt]
      exact ⟨hc, Nat.lt_succ_of_lt hlt⟩
  · intro b e' hb
    rcases hlook b e' hb with ⟨hbna, he'⟩ | ⟨e, he, hv, hl, hh, _⟩
    · subst he'
      exact ⟨hhash, hlen⟩
    · rw [hv, hl, hh]
      exact hcoh b e he
  · intro b e' c f' hb hc hval
    rcases hlook b e' hb with ⟨hbna, he'⟩ | ⟨e, he, hv, _, _, _⟩
    · rcases hlook c f' hc with ⟨hcna, hf'⟩ | ⟨f, hf, hfv, _, _, _⟩
      · rw [hbna, hcna]
      · exfalso
        apply hnov c f hf
        rw [← hfv, ← hval, he']
    · rcases hlook c f' hc with ⟨hcna, hf'⟩ | ⟨f, hf, hfv, _, _, _⟩
      · exfalso
        apply hnov b e he
        rw [← hv, hval, hf']
      · exact hdis b e c f he hf (by rw [← hv, ← hfv, hval])

theorem dseg_unlink (h : Heap) (l₁ l₂ : List Nat) (a : Nat) (bg tl : Option Nat)
    (e : GStrInterner)
    (hseg : DSeg h (l₁ ++ a :: l₂) none bg tl none)
    (hnd : (l₁ ++ a :: l₂).Nodup)
    (he : hlookup h a = some e)
    (h₁ : Heap) (tl' : Option Nat) (h₂ : Heap) (bg' : Option Nat)
    (hh₁some : ∀ nx, e.next = some nx → h₁ = hmodify h nx (fun ne => { ne with prev := e.prev }))
    (hh₁none : e.next = none → h₁ = h)
    (htlsome : ∀ nx, e.next = some nx → tl' = tl)
    (htlnone : e.next = none → tl' = e.prev)
    (hh₂some : ∀ pv, e.prev = some pv → h₂ = hmodify h₁ pv (fun pe => { pe with next := e.next }))
    (hh₂none : e.prev = none → h₂ = h₁)
    (hbgsome : ∀ pv, e.prev = some pv → bg' = bg)
    (hbgnone : e.prev = none → bg' = e.next) :
    DSeg h₂ (l₁ ++ l₂) none bg' tl' none := by
  obtain ⟨q₁, c₁, A, B⟩ := (dseg_append h l₁ (a :: l₂) none bg tl none).mp hseg
  obtain ⟨hc₁, e₀, he₀, hprev, C⟩ := B
  rw [he] at he₀
  injection he₀ with he₀
  subst he₀
  obtain ⟨hnd₁, hnd₂', hdisj⟩ := List.nodup_append.mp hnd
  obtain ⟨hal₂, hnd₂⟩ := List.nodup_cons.mp hnd₂'
  have hdisj₁₂ : ∀ x ∈ l₁, x ∉ l₂ := fun x hx hx2 => hdisj hx (List.mem_cons_of_mem _ hx2)
  cases hnx : e.next with
  | none =>
    have hh₁' : h₁ = h := hh₁none hnx
    have htl'' : tl' = e.prev := htlnone hnx
    cases l₂ with
    | cons x xs => cases (hnx ▸ C.1)
    | nil =>
      obtain ⟨hq, hn⟩ := C
      cases hpv : e.prev with
      | none =>
        have hh₂' : h₂ = h₁ := hh₂none hpv
        have hbg'' : bg' = e.next := hbgnone hpv
        have hq₁ : q₁ = none := by rw [← hprev, hpv]
        cases l₁ with
        | cons y ys =>
          obtain ⟨v, hv⟩ := dseg_nonempty_q h y ys none bg q₁ c₁ A
          rw [hv] at hq₁
          cases hq₁
        | nil =>
          rw [hh₂', hh₁', hbg'', htl'', hnx, hpv]
          exact ⟨rfl, rfl⟩
      | some pv =>
        have hh₂' : h₂ = hmodify h₁ pv (fun pe => { pe with next := e.next }) := hh₂some pv hpv
        have hbg'' : bg' = bg := hbgsome pv hpv
        have hq₁ : q₁ = some pv := by rw [← hprev, hpv]
        cases l₁ with
        | nil =>
          obtain ⟨hqq, _⟩ := A
          rw [hqq] at hq₁
          cases hq₁
        | cons y ys =>
          subst hq₁
          subst hc₁
          have hA₂ := dseg_patch_last_next h (y :: ys) none bg (some a) none pv
            (by simp) hnd₁ A
          rw [hh₂', hh₁', hbg'', htl'', hpv, List.append_nil, hnx]
          exact hA₂
  | some nx =>
    have hh₁' : h₁ = hmodify h nx (fun ne => { ne with prev := e.prev }) := hh₁some nx hnx
    have htl'' : tl' = tl := htlsome nx hnx
    cases l₂ with
    | nil =>
      obtain ⟨_, hn⟩ := C
      rw [hnx] at hn
      cases hn
    | cons x xs =>
      have hxnx : nx = x := by
        have hcx := C.1
        rw [hnx] at hcx
        exact Option.some.inj hcx
      subst hxnx
      have hCc : DSeg h (nx :: xs) (some a) (some nx) tl none := hnx ▸ C
      have hnxxs : nx ∉ xs := (List.nodup_cons.mp hnd₂).1
      have hC₁ : DSeg h₁ (nx :: xs) e.prev (some nx) tl none := by
        rw [hh₁']
        exact dseg_patch_head_prev h nx xs (some a) e.prev tl none hnxxs hCc
      cases hpv : e.prev with
      | none =>
        have hh₂' : h₂ = h₁ := hh₂none hpv
        have hbg'' : bg' = e.next := hbgnone hpv
        have hq₁ : q₁ = none := by rw [← hprev, hpv]
        cases l₁ with
        | cons y ys =>
          obtain ⟨v, hv⟩ := dseg_nonempty_q h y ys none bg q₁ c₁ A
          rw [hv] at hq₁
          cases hq₁
        | nil =>
          rw [hh₂', hbg'', hnx, List.nil_append]
          rw [hpv] at hC₁
          rw [htl'']
          exact hC₁
      | some pv =>
        have hh₂' : h₂ = hmodify h₁ pv (fun pe => { pe with next := e.next }) := hh₂some pv hpv
        have hbg'' : bg' = bg := hbgsome pv hpv
        have hq₁ : q₁ = some pv := by rw [← hprev, hpv]
        cases l₁ with
        | nil =>
          obtain ⟨hqq, _⟩ := A
          rw [hqq] at hq₁
          cases hq₁
        | cons y ys =>
          subst hq₁
          subst hc₁
          have hpvl₁ : pv ∈ y :: ys := by
            rcases dseg_q_mem h (y :: ys) none bg (some a) pv A with ⟨_, hp⟩ | hmem
            · cases hp
            · exact hmem
          have hA₁ : DSeg h₁ (y :: ys) none bg (some pv) (some a) := by
            rw [hh₁']
            refine dseg_frame h _ (y :: ys) none bg (some pv) (some a) ?_ A
            intro z hz
            have hznx : z ≠ nx := fun hc =>
              hdisj₁₂ z hz (hc ▸ List.mem_cons_self nx xs)
            rw [hlookup_hmodify, if_neg hznx]
          have hA₂ := dseg_patch_last_next h₁ (y :: ys) none bg (some a) (some nx) pv
            (by simp) hnd₁ hA₁
          have hC₂ : DSeg h₂ (nx :: xs) (some pv) (some nx) tl none := by
            rw [hh₂']
            rw [hpv] at hC₁
            refine dseg_frame h₁ _ (nx :: xs) (some pv) (some nx) tl none ?_ hC₁
            intro z hz
            have hzpv : z ≠ pv := fun hc => hdisj₁₂ pv hpvl₁ (hc ▸ hz)
            rw [hlookup_hmodify, if_neg hzpv]
          rw [hbg'', htl'']
          refine (dseg_append h₂ (y :: ys) (nx :: xs) none bg tl none).mpr
            ⟨some pv, some nx, ?_, hC₂⟩
          rw [hh₂', hnx]
          exact hA₂

theorem remove_ok_exists (a : Nat) (s : State) (e : GStrInterner)
    (he : hlookup s.heap a = some e) (hcnt : e.count = 0) (hlock : s.lockPoisoned = false) :
    ∃ s2, GStrInterner.remove a s = Except.ok s2 := by
  cases hr : GStrInterner.remove a s with
  | ok s2 => exact ⟨s2, rfl⟩
  | error msg =>
    exfalso
    simp [GStrInterner.remove, he, hcnt, hlock] at hr

theorem remove_result (a : Nat) (s : State) (e : GStrInterner)
    (he : hlookup s.heap a = some e) (hcnt : e.count = 0) (hlock : s.lockPoisoned = false)
    (s2 : State) (hok : GStrInterner.remove a s = Except.ok s2) :
    (∀ nx pv, e.next = some nx → e.prev = some pv →
      s2 = { s with
               heap := hmodify (hmodify s.heap nx (fun ne => { ne with prev := e.prev })) pv (fun pe => { pe with next := e.next }) }) ∧
    (∀ nx, e.next = some nx → e.prev = none →
      s2 = { s with
               heap := hmodify s.heap nx (fun ne => { ne with prev := e.prev }),
               begin := e.next }) ∧
    (∀ pv, e.next = none → e.prev = some pv →
      s2 = { s with
               heap := hmodify s.heap pv (fun pe => { pe with next := e.next }),
               tail := e.prev }) ∧
    (e.next = none → e.prev = none →
      s2 = { s with tail := e.prev, begin := e.next }) := by
  refine ⟨?_, ?_, ?_, ?_⟩
  · intro nx pv hnx hpv
    simp only [GStrInterner.remove, he, hcnt, hlock, hnx, hpv, if_pos rfl, Bool.false_eq_true,
      if_false] at hok
    injection hok with hok
    rw [hnx, hpv, hlock]
    exact hok.symm
  · intro nx hnx hpv
    simp only [GStrInterner.remove, he, hcnt, hlock, hnx, hpv, if_pos rfl, Bool.false_eq_true,
      if_false] at hok
    injection hok with hok
    rw [hnx, hpv, hlock]
    exact hok.symm
  · intro pv hnx hpv
    simp only [GStrInterner.remove, he, hcnt, hlock, hnx, hpv, if_pos rfl, Bool.false_eq_true,
      if_false] at hok
    injection hok with hok
    rw [hnx, hpv, hlock]
    exact hok.symm
  · intro hnx hpv
    simp only [GStrInterner.remove, he, hcnt, hlock, hnx, hpv, if_pos rfl, Bool.false_eq_true,
      if_false] at hok
    injection hok with hok
    rw [hnx, hpv, hlock]
    exact hok.symm

theorem drop_nonfinal (s : State) (g : GStr) (e : GStrInterner)
    (he : hlookup s.heap g.value = some e) (hc : ¬ e.count - 1 = 0) :
    GStr.drop g s =
      Except.ok { s with heap := hmodify s.heap g.value (fun x => { x with count := x.count - 1 }) } := by
  simp only [GStr.drop, he, if_neg hc]

theorem drop_final (s : State) (g : GStr) (e : GStrInterner)
    (he : hlookup s.heap g.value = some e) (hc : e.count - 1 = 0)
    (hlock : s.lockPoisoned = false) :
    ∃ s2, GStrInterner.remove g.value
        { s with heap := hmodify s.heap g.value (fun x => { x with count := x.count - 1 }) }
        = Except.ok s2 ∧
      GStr.drop g s = Except.ok { s2 with heap := hfree s2.heap g.value } := by
  have he₁ : hlookup (hmodify s.heap g.value (fun x => { x with count := x.count - 1 })) g.value
      = some { e with count := e.count - 1 } := by
    rw [hlookup_hmodify, if_pos rfl, he]
    rfl
  obtain ⟨s2, hs2⟩ := remove_ok_exists g.value
    { s with heap := hmodify s.heap g.value (fun x => { x with count := x.count - 1 }) }
    { e with count := e.count - 1 } he₁ hc hlock
  refine ⟨s2, hs2, ?_⟩
  simp only [GStr.drop, he, if_pos hc, hs2]

theorem drop_final_poisoned (s : State) (g : GStr) (e : GStrInterner)
    (he : hlookup s.heap g.value = some e) (hc : e.count - 1 = 0)
    (hl : s.lockPoisoned = true) :
    GStr.drop g s = Except.error ("No se pudo bloquear el mutex") := by
  have he₁ : hlookup (hmodify s.heap g.value (fun x => { x with count := x.count - 1 })) g.value
      = some { e with count := e.count - 1 } := by
    rw [hlookup_hmodify, if_pos rfl, he]
    rfl
  have hrem : GStrInterner.remove g.value
      { s with heap := hmodify s.heap g.value (fun x => { x with count := x.count - 1 }) }
      = Except.error ("No se pudo bloquear el mutex") := by
    simp only [GStrInterner.remove, he₁, hc, hl, if_pos rfl, if_true]
  simp only [GStr.drop, he, if_pos hc, hrem]

theorem hmodify_content_lookup (h : Heap) (a : Nat) (f : GStrInterner → GStrInterner)
    (hf : ∀ x, (f x).value = x.value ∧ (f x).len = x.len ∧ (f x).hash = x.hash) :
    ∀ b e₂, hlookup (hmodify h a f) b = some e₂ →
      ∃ e₃, hlookup h b = some e₃ ∧ e₂.value = e₃.value ∧ e₂.len = e₃.len ∧
        e₂.hash = e₃.hash := by
  intro b e₂ hb
  rw [hlookup_hmodify] at hb
  by_cases hba : b = a
  · rw [if_pos hba] at hb
    cases he₃ : hlookup h b with
    | none => rw [he₃] at hb; cases hb
    | some e₃ =>
      rw [he₃] at hb
      injection hb with hb
      obtain ⟨h1, h2, h3⟩ := hf e₃
      exact ⟨e₃, rfl, by rw [← hb, h1], by rw [← hb, h2], by rw [← hb, h3]⟩
  · rw [if_neg hba] at hb
    exact ⟨e₂, hb, rfl, rfl, rfl⟩

theorem hmodify_links_lookup (h : Heap) (a : Nat) (f : GStrInterner → GStrInterner)
    (hf : ∀ x, (f x).value = x.value ∧ (f x).len = x.len ∧ (f x).hash = x.hash ∧
      (f x).count = x.count) :
    ∀ b e₂, hlookup (hmodify h a f) b = some e₂ →
      ∃ e₃, hlookup h b = some e₃ ∧ e₂.value = e₃.value ∧ e₂.len = e₃.len ∧
        e₂.hash = e₃.hash ∧ e₂.count = e₃.count := by
  intro b e₂ hb
  rw [hlookup_hmodify] at hb
  by_cases hba : b = a
  · rw [if_pos hba] at hb
    cases he₃ : hlookup h b with
    | none => rw [he₃] at hb; cases hb
    | some e₃ =>
      rw [he₃] at hb
      injection hb with hb
      obtain ⟨h1, h2, h3, h4⟩ := hf e₃
      exact ⟨e₃, rfl, by rw [← hb, h1], by rw [← hb, h2], by rw [← hb, h3], by rw [← hb, h4]⟩
  · rw [if_neg hba] at hb
    exact ⟨e₂, hb, rfl, rfl, rfl, rfl⟩

theorem reginv_dec (s : State) (a : Nat) (e : GStrInterner) (hInv : RegInv s)
    (he : hlookup s.heap a = some e) (hc : ¬ e.count - 1 = 0) :
    RegInv { s with heap := hmodify s.heap a (fun x => { x with count := x.count - 1 }) } := by
  obtain ⟨⟨addrs, hseg, hperm, hnd, hbnd⟩, hcoh, hdis⟩ := hInv
  refine ⟨⟨addrs, ?_, ?_, ?_, ?_⟩, ?_, ?_⟩
  · exact dseg_links_preserved s.heap addrs none s.begin s.tail none a
      (fun x => { x with count := x.count - 1 }) (fun x => ⟨rfl, rfl⟩) hseg
  · show addrs.Perm (heapKeys (hmodify s.heap a (fun x => { x with count := x.count - 1 })))
    rw [heapKeys_hmodify]
    exact hperm
  · show (heapKeys (hmodify s.heap a (fun x => { x with count := x.count - 1 }))).Nodup
    rw [heapKeys_hmodify]
    exact hnd
  · intro b e₂ hb
    show 1 ≤ e₂.count ∧ b < s.nextAddr
    rw [show ({ s with heap := hmodify s.heap a (fun x => { x with count := x.count - 1 }) } : State).heap
        = hmodify s.heap a (fun x => { x with count := x.count - 1 }) from rfl,
      hlookup_hmodify] at hb
    by_cases hba : b = a
    · rw [if_pos hba] at hb
      subst hba
      rw [he] at hb
      injection hb with hb
      subst hb
      refine ⟨?_, (hbnd b e he).2⟩
      show 1 ≤ e.count - 1
      omega
    · rw [if_neg hba] at hb
      exact hbnd b e₂ hb
  · intro b e₂ hb
    rw [show ({ s with heap := hmodify s.heap a (fun x => { x with count := x.count - 1 }) } : State).heap
        = hmodify s.heap a (fun x => { x with count := x.count - 1 }) from rfl] at hb
    obtain ⟨e₃, he₃, h1, h2, h3⟩ :=
      hmodify_content_lookup s.heap a (fun x => { x with count := x.count - 1 })
        (fun x => ⟨rfl, rfl, rfl⟩) b e₂ hb
    rw [h1, h2, h3]
    exact hcoh b e₃ he₃
  · intro b e₂ c f₂ hb hc₂ hval
    rw [show ({ s with heap := hmodify s.heap a (fun x => { x with count := x.count - 1 }) } : State).heap
        = hmodify s.heap a (fun x => { x with count := x.count - 1 }) from rfl] at hb hc₂
    obtain ⟨e₃, he₃, h1, _, _⟩ :=
      hmodify_content_lookup s.heap a (fun x => { x with count := x.count - 1 })
        (fun x => ⟨rfl, rfl, rfl⟩) b e₂ hb
    obtain ⟨f₃, hf₃, h1', _, _⟩ :=
      hmodify_content_lookup s.heap a (fun x => { x with count := x.count - 1 })
        (fun x => ⟨rfl, rfl, rfl⟩) c f₂ hc₂
    exact hdis b e₃ c f₃ he₃ hf₃ (by rw [← h1, ← h1', hval])

theorem reginv_free_finish (s : State) (a : Nat) (s2 : State) (l₁ l₂ : List Nat)
    (hpermsplit : (l₁ ++ a :: l₂).Perm (heapKeys s.heap))
    (hndsplit : (l₁ ++ a :: l₂).Nodup)
    (hndkeys : (heapKeys s.heap).Nodup)
    (hseg₂ : DSeg s2.heap (l₁ ++ l₂) none s2.begin s2.tail none)
    (hkeys₂ : heapKeys s2.heap = heapKeys s.heap)
    (hnext₂ : s2.nextAddr = s.nextAddr)
    (htrans : ∀ b e₂, b ≠ a → hlookup s2.heap b = some e₂ →
      ∃ e₃, hlookup s.heap b = some e₃ ∧ e₂.value = e₃.value ∧ e₂.len = e₃.len ∧
        e₂.hash = e₃.hash ∧ e₂.count = e₃.count)
    (hbnd : ∀ b e, hlookup s.heap b = some e → 1 ≤ e.count ∧ b < s.nextAddr)
    (hcoh : coherent s) (hdis : distinctContents s) :
    RegInv { s2 with heap := hfree s2.heap a } := by
  obtain ⟨hnd₁, hnd₂', hdisj⟩ := List.nodup_append.mp hndsplit
  obtain ⟨hal₂, hnd₂⟩ := List.nodup_cons.mp hnd₂'
  have hal₁ : a ∉ l₁ := fun hc => hdisj hc (List.mem_cons_self _ _)
  have hmemne : ∀ x ∈ l₁ ++ l₂, x ≠ a := by
    intro x hx hc
    subst hc
    rcases List.mem_append.mp hx with h1 | h2
    · exact hal₁ h1
    · exact hal₂ h2
  have hfinal : ∀ b, b ≠ a → hlookup (hfree s2.heap a) b = hlookup s2.heap b := by
    intro b hb
    rw [hlookup_hfree, if_neg hb]
  refine ⟨⟨l₁ ++ l₂, ?_, ?_, ?_, ?_⟩, ?_, ?_⟩
  · refine dseg_frame s2.heap _ (l₁ ++ l₂) none s2.begin s2.tail none ?_ hseg₂
    intro x hx
    exact hfinal x (hmemne x hx)
  · show (l₁ ++ l₂).Perm (heapKeys (hfree s2.heap a))
    rw [heapKeys_hfree, hkeys₂]
    have hp := hpermsplit.filter (fun k => k != a)
    have hleft : (l₁ ++ a :: l₂).filter (fun k => k != a) = l₁ ++ l₂ := by
      rw [List.filter_append, List.filter_cons]
      have ha : ((a != a) = true) = False := by simp
      simp only [bne_self_eq_false]
      rw [List.filter_eq_self.mpr, List.filter_eq_self.mpr]
      · simp
      · intro x hx
        simp [bne_iff_ne]
        intro hc
        exact hal₂ (hc ▸ hx)
      · intro x hx
        simp [bne_iff_ne]
        intro hc
        exact hal₁ (hc ▸ hx)
    rw [hleft] at hp
    exact hp
  · show (heapKeys (hfree s2.heap a)).Nodup
    rw [heapKeys_hfree, hkeys₂]
    exact hndkeys.filter _
  · intro b e₂ hb
    show 1 ≤ e₂.count ∧ b < s2.nextAddr
    rw [show ({ s2 with heap := hfree s2.heap a } : State).heap = hfree s2.heap a from rfl,
      hlookup_hfree] at hb
    by_cases hba : b = a
    · rw [if_pos hba] at hb
      cases hb
    · rw [if_neg hba] at hb
      obtain ⟨e₃, he₃, _, _, _, hcnt⟩ := htrans b e₂ hba hb
      obtain ⟨h1, h2⟩ := hbnd b e₃ he₃
      rw [hnext₂, hcnt]
      exact ⟨h1, h2⟩
  · intro b e₂ hb
    rw [show ({ s2 with heap := hfree s2.heap a } : State).heap = hfree s2.heap a from rfl,
      hlookup_hfree] at hb
    by_cases hba : b = a
    · rw [if_pos hba] at hb
      cases hb
    · rw [if_neg hba] at hb
      obtain ⟨e₃, he₃, h1, h2, h3, _⟩ := htrans b e₂ hba hb
      rw [h1, h2, h3]
      exact hcoh b e₃ he₃
  · intro b e₂ c f₂ hb hc hval
    rw [show ({ s2 with heap := hfree s2.heap a } : State).heap = hfree s2.heap a from rfl,
      hlookup_hfree] at hb hc
    by_cases hba : b = a
    · rw [if_pos hba] at hb
      cases hb
    · rw [if_neg hba] at hb
      by_cases hca : c = a
      · rw [if_pos hca] at hc
        cases hc
      · rw [if_neg hca] at hc
        obtain ⟨e₃, he₃, h1, _, _, _⟩ := htrans b e₂ hba hb
        obtain ⟨f₃, hf₃, h1', _, _, _⟩ := htrans c f₂ hca hc
        exact hdis b e₃ c f₃ he₃ hf₃ (by rw [← h1, ← h1', hval])

theorem reginv_drop (s : State) (g : GStr) (s' : State) (hInv : RegInv s)
    (hok : GStr.drop g s = Except.ok s') : RegInv s' := by
  cases he : hlookup s.heap g.value with
  | none => simp [GStr.drop, he] at hok
  | some e =>
    by_cases hc : e.count - 1 = 0
    · by_cases hl : s.lockPoisoned = true
      · rw [drop_final_poisoned s g e he hc hl] at hok
        cases hok
      · have hl' : s.lockPoisoned = false := by simpa using hl
        obtain ⟨s2, hrem, hdrop⟩ := drop_final s g e he hc hl'
        rw [hdrop] at hok
        injection hok with hok
        subst hok
        obtain ⟨⟨addrs, hseg, hperm, hnd, hbnd⟩, hcoh, hdis⟩ := hInv
        have he₁ : hlookup (hmodify s.heap g.value (fun x => { x with count := x.count - 1 }))
            g.value = some { e with count := e.count - 1 } := by
          rw [hlookup_hmodify, if_pos rfl, he]
          rfl
        have hseg1 : DSeg (hmodify s.heap g.value (fun x => { x with count := x.count - 1 }))
            addrs none s.begin s.tail none :=
          dseg_links_preserved s.heap addrs none s.begin s.tail none g.value
            (fun x => { x with count := x.count - 1 }) (fun x => ⟨rfl, rfl⟩) hseg
        have hmem : g.value ∈ addrs := hperm.mem_iff.mpr (mem_keys_of_hlookup _ _ _ he)
        have hndaddr : addrs.Nodup := hperm.nodup_iff.mpr hnd
        obtain ⟨l₁, l₂, haddr⟩ := List.append_of_mem hmem
        subst haddr
        have hres := remove_result g.value
          { s with heap := hmodify s.heap g.value (fun x => { x with count := x.count - 1 }) }
          { e with count := e.count - 1 } he₁ hc hl' s2 hrem
        cases hnx : e.next with
        | some nx =>
          cases hpv : e.prev with
          | some pv =>
            have hs2 := hres.1 nx pv hnx hpv
            subst hs2
            have hseg₂ : DSeg
                (hmodify (hmodify (hmodify s.heap g.value (fun x => { x with count := x.count - 1 }))
                  nx (fun ne => { ne with prev := e.prev })) pv (fun pe => { pe with next := e.next }))
                (l₁ ++ l₂) none s.begin s.tail none := by
              refine dseg_unlink
                (hmodify s.heap g.value (fun x => { x with count := x.count - 1 }))
                l₁ l₂ g.value s.begin s.tail { e with count := e.count - 1 } hseg1 hndaddr he₁
                (hmodify (hmodify s.heap g.value (fun x => { x with count := x.count - 1 }))
                  nx (fun ne => { ne with prev := e.prev }))
                s.tail
                (hmodify (hmodify (hmodify s.heap g.value (fun x => { x with count := x.count - 1 }))
                  nx (fun ne => { ne with prev := e.prev })) pv (fun pe => { pe with next := e.next }))
                s.begin
                ?_ ?_ ?_ ?_ ?_ ?_ ?_ ?_
              · intro nx' hnx'
                have h2 : e.next = some nx' := hnx'
                rw [hnx] at h2
                injection h2 with h2
                subst h2
                rfl
              · intro h2'
                have h2 : e.next = none := h2'
                rw [hnx] at h2
                cases h2
              · intro nx' hnx'
                rfl
              · intro h2'
                have h2 : e.next = none := h2'
                rw [hnx] at h2
                cases h2
              · intro pv' hpv'
                have h2 : e.prev = some pv' := hpv'
                rw [hpv] at h2
                injection h2 with h2
                subst h2
                rfl
              · intro h2'
                have h2 : e.prev = none := h2'
                rw [hpv] at h2
                cases h2
              · intro pv' hpv'
                rfl
              · intro h2'
                have h2 : e.prev = none := h2'
                rw [hpv] at h2
                cases h2
            refine reginv_free_finish s g.value _ l₁ l₂ hperm hndaddr hnd ?_ ?_ rfl ?_ hbnd hcoh hdis
            · exact hseg₂
            · show heapKeys _ = heapKeys s.heap
              rw [heapKeys_hmodify, heapKeys_hmodify, heapKeys_hmodify]
            · intro b e₂ hba hb
              obtain ⟨e₄, he₄, v1, l1, h1, c1⟩ := hmodify_links_lookup _ pv
                (fun pe => { pe with next := e.next }) (fun x => ⟨rfl, rfl, rfl, rfl⟩) b e₂ hb
              obtain ⟨e₅, he₅, v2, l2, h2, c2⟩ := hmodify_links_lookup _ nx
                (fun ne => { ne with prev := e.prev }) (fun x => ⟨rfl, rfl, rfl, rfl⟩) b e₄ he₄
              rw [hlookup_hmodify, if_neg hba] at he₅
              exact ⟨e₅, he₅, by rw [v1, v2], by rw [l1, l2], by rw [h1, h2], by rw [c1, c2]⟩
          | none =>
            have hs2 := hres.2.1 nx hnx hpv
            subst hs2
            have hseg₂ : DSeg
                (hmodify (hmodify s.heap g.value (fun x => { x with count := x.count - 1 }))
                  nx (fun ne => { ne with prev := e.prev }))
                (l₁ ++ l₂) none e.next s.tail none := by
              refine dseg_unlink
                (hmodify s.heap g.value (fun x => { x with count := x.count - 1 }))
                l₁ l₂ g.value s.begin s.tail { e with count := e.count - 1 } hseg1 hndaddr he₁
                (hmodify (hmodify s.heap g.value (fun x => { x with count := x.count - 1 }))
                  nx (fun ne => { ne with prev := e.prev }))
                s.tail
                (hmodify (hmodify s.heap g.value (fun x => { x with count := x.count - 1 }))
                  nx (fun ne => { ne with prev := e.prev }))
                e.next
                ?_ ?_ ?_ ?_ ?_ ?_ ?_ ?_
              · intro nx' hnx'
                have h2 : e.next = some nx' := hnx'
                rw [hnx] at h2
                injection h2 with h2
                subst h2
                rfl
              · intro h2'
                have h2 : e.next = none := h2'
                rw [hnx] at h2
                cases h2
              · intro nx' hnx'
                rfl
              · intro h2'
                have h2 : e.next = none := h2'
                rw [hnx] at h2
                cases h2
              · intro pv' hpv'
                have h2 : e.prev = some pv' := hpv'
                rw [hpv] at h2
                cases h2
              · intro h2'
                rfl
              · intro pv' hpv'
                have h2 : e.prev = some pv' := hpv'
                rw [hpv] at h2
                cases h2
              · intro h2'
                rfl
            refine reginv_free_finish s g.value _ l₁ l₂ hperm hndaddr hnd ?_ ?_ rfl ?_ hbnd hcoh hdis
            · exact hseg₂
            · show heapKeys _ = heapKeys s.heap
              rw [heapKeys_hmodify, heapKeys_hmodify]
            · intro b e₂ hba hb
              obtain ⟨e₅, he₅, v2, l2, h2, c2⟩ := hmodify_links_lookup _ nx
                (fun ne => { ne with prev := e.prev }) (fun x => ⟨rfl, rfl, rfl, rfl⟩) b e₂ hb
              rw [hlookup_hmodify, if_neg hba] at he₅
              exact ⟨e₅, he₅, v2, l2, h2, c2⟩
        | none =>
          cases hpv : e.prev with
          | some pv =>
            have hs2 := hres.2.2.1 pv hnx hpv
            subst hs2
            have hseg₂ : DSeg
                (hmodify (hmodify s.heap g.value (fun x => { x with count := x.count - 1 }))
                  pv (fun pe => { pe with next := e.next }))
                (l₁ ++ l₂) none s.begin e.prev none := by
              refine dseg_unlink
                (hmodify s.heap g.value (fun x => { x with count := x.count - 1 }))
                l₁ l₂ g.value s.begin s.tail { e with count := e.count - 1 } hseg1 hndaddr he₁
                (hmodify s.heap g.value (fun x => { x with count := x.count - 1 }))
                e.prev
                (hmodify (hmodify s.heap g.value (fun x => { x with count := x.count - 1 }))
                  pv (fun pe => { pe with next := e.next }))
                s.begin
                ?_ ?_ ?_ ?_ ?_ ?_ ?_ ?_
              · intro nx' hnx'
                have h2 : e.next = some nx' := hnx'
                rw [hnx] at h2
                cases h2
              · intro h2'
                rfl
              · intro nx' hnx'
                have h2 : e.next = some nx' := hnx'
                rw [hnx] at h2
                cases h2
              · intro h2'
                rfl
              · intro pv' hpv'
                have h2 : e.prev = some pv' := hpv'
                rw [hpv] at h2
                injection h2 with h2
                subst h2
                rfl
              · intro h2'
                have h2 : e.prev = none := h2'
                rw [hpv] at h2
                cases h2
              · intro pv' hpv'
                rfl
              · intro h2'
                have h2 : e.prev = none := h2'
                rw [hpv] at h2
                cases h2
            refine reginv_free_finish s g.value _ l₁ l₂ hperm hndaddr hnd ?_ ?_ rfl ?_ hbnd hcoh hdis
            · exact hseg₂
            · show heapKeys _ = heapKeys s.heap
              rw [heapKeys_hmodify, heapKeys_hmodify]
            · intro b e₂ hba hb
              obtain ⟨e₅, he₅, v2, l2, h2, c2⟩ := hmodify_links_lookup _ pv
                (fun pe => { pe with next := e.next }) (fun x => ⟨rfl, rfl, rfl, rfl⟩) b e₂ hb
              rw [hlookup_hmodify, if_neg hba] at he₅
              exact ⟨e₅, he₅, v2, l2, h2, c2⟩
          | none =>
            have hs2 := hres.2.2.2 hnx hpv
            subst hs2
            have hseg₂ : DSeg
                (hmodify s.heap g.value (fun x => { x with count := x.count - 1 }))
                (l₁ ++ l₂) none e.next e.prev none := by
              refine dseg_unlink
                (hmodify s.heap g.value (fun x => { x with count := x.count - 1 }))
                l₁ l₂ g.value s.begin s.tail { e with count := e.count - 1 } hseg1 hndaddr he₁
                (hmodify s.heap g.value (fun x => { x with count := x.count - 1 }))
                e.prev
                (hmodify s.heap g.value (fun x => { x with count := x.count - 1 }))
                e.next
                ?_ ?_ ?_ ?_ ?_ ?_ ?_ ?_
              · intro nx' hnx'
                have h2 : e.next = some nx' := hnx'
                rw [hnx] at h2
                cases h2
              · intro h2'
                rfl
              · intro nx' hnx'
                have h2 : e.next = some nx' := hnx'
                rw [hnx] at h2
                cases h2
              · intro h2'
                rfl
              · intro pv' hpv'
                have h2 : e.prev = some pv' := hpv'
                rw [hpv] at h2
                cases h2
              · intro h2'
                rfl
              · intro pv' hpv'
                have h2 : e.prev = some pv' := hpv'
                rw [hpv] at h2
                cases h2
              · intro h2'
                rfl
            refine reginv_free_finish s g.value _ l₁ l₂ hperm hndaddr hnd ?_ ?_ rfl ?_ hbnd hcoh hdis
            · exact hseg₂
            · show heapKeys _ = heapKeys s.heap
              rw [heapKeys_hmodify]
            · intro b e₂ hba hb
              rw [hlookup_hmodify, if_neg hba] at hb
              exact ⟨e₂, hb, rfl, rfl, rfl, rfl⟩
    · rw [drop_nonfinal s g e he hc] at hok
      injection hok with hok
      subst hok
      exact reginv_dec s g.value e hInv he hc

theorem clone_snd (g : GStr) (s : State) :
    (GStr.clone g s).2
      = { s with heap := hmodify s.heap g.value (fun x => { x with count := x.count + 1 }) } := rfl

theorem clone_fst (g : GStr) (s : State) : (GStr.clone g s).1 = g := rfl

theorem reginv_clone (s : State) (g : GStr) (hInv : RegInv s) :
    RegInv (GStr.clone g s).2 := by
  rw [clone_snd]
  exact reginv_bump s g.value hInv

theorem newT_eq_new (t : StringInput) (s : State) :
    GStr.newT t s = GStr.new t.get_str_ref s := by
  cases t <;> rfl

theorem reginv_new (strn : String) (s : State) (g : GStr) (s' : State) (hInv : RegInv s)
    (hok : GStr.new strn s = Except.ok (g, s')) : RegInv s' := by
  obtain ⟨hlock, hcases⟩ := new_cases strn s g s' hok
  rcases hcases with ⟨e, he, hcmp, hs'⟩ | ⟨hnone, hg, hs'⟩
  · subst hs'
    exact reginv_bump s g.value hInv
  · subst hs'
    refine reginv_create s strn (ohash strn).2 (ohash strn).1 hInv rfl rfl ?_
    intro a e ha hval
    obtain ⟨⟨addrs, hseg, hperm, hnd, hbnd⟩, hcoh, hdis⟩ := hInv
    have hmem : a ∈ addrs := hperm.mem_iff.mpr (mem_keys_of_hlookup _ _ _ ha)
    have hfuel : addrs.length ≤ s.heap.length := by
      rw [hperm.length_eq]
      show (heapKeys s.heap).length ≤ s.heap.length
      rw [heapKeys, List.length_map]
    have hfalse := search_none_spec strn (ohash strn).2 (ohash strn).1 s.heap s.tail addrs
      none s.begin s.heap.length hseg hfuel hnone a hmem e ha
    obtain ⟨hhash, hlen⟩ := hcoh a e ha
    have htrue : e.compare (ohash strn).1 (ohash strn).2 strn = true := by
      rw [compare_eq_true_iff]
      exact ⟨by rw [hhash, hval], by rw [hlen, hval], hval⟩
    rw [htrue] at hfalse
    cases hfalse

theorem new_value_len (strn : String) (s : State) (g : GStr) (s' : State)
    (hok : GStr.new strn s = Except.ok (g, s')) :
    ∃ e, hlookup s'.heap g.value = some e ∧ e.value = strn ∧ e.len = (ohash strn).2 := by
  obtain ⟨hlock, hcases⟩ := new_cases strn s g s' hok
  rcases hcases with ⟨e, he, hcmp, hs'⟩ | ⟨hnone, hg, hs'⟩
  · subst hs'
    rw [compare_eq_true_iff] at hcmp
    obtain ⟨hh, hlen, hv⟩ := hcmp
    refine ⟨{ e with count := e.count + 1 }, ?_, hv, hlen⟩
    show hlookup (hmodify s.heap g.value (fun x => { x with count := x.count + 1 })) g.value = _
    rw [hlookup_hmodify, if_pos rfl, he]
    rfl
  · subst hs'
    subst hg
    show ∃ e, hlookup (create_gstr strn (ohash strn).2 (ohash strn).1 s).2.heap s.nextAddr
      = some e ∧ e.value = strn ∧ e.len = (ohash strn).2
    cases htl : s.tail with
    | none =>
      refine ⟨⟨strn, (ohash strn).2, 1, (ohash strn).1, none, s.tail⟩, ?_, rfl, rfl⟩
      simp only [create_gstr_heap, htl]
      rw [hlookup_cons_eq]
    | some t =>
      by_cases htn : t = s.nextAddr
      · subst htn
        refine ⟨⟨strn, (ohash strn).2, 1, (ohash strn).1, some s.nextAddr, s.tail⟩, ?_, rfl, rfl⟩
        simp only [create_gstr_heap, htl]
        rw [hlookup_hmodify, if_pos rfl, hlookup_cons_eq]
        rfl
      · refine ⟨⟨strn, (ohash strn).2, 1, (ohash strn).1, none, s.tail⟩, ?_, rfl, rfl⟩
        simp only [create_gstr_heap, htl]
        have hnt : s.nextAddr ≠ t := fun hc => htn hc.symm
        rw [hlookup_hmodify, if_neg hnt, hlookup_cons_eq]

theorem cloneN_spec (g : GStr) (k : Nat) : ∀ (s : State) (e : GStrInterner),
    hlookup s.heap g.value = some e →
    (cloneN k g s).nextAddr = s.nextAddr ∧
    (cloneN k g s).begin = s.begin ∧
    (cloneN k g s).tail = s.tail ∧
    (cloneN k g s).lockPoisoned = s.lockPoisoned ∧
    hlookup (cloneN k g s).heap g.value = some { e with count := e.count + k } ∧
    (∀ b, b ≠ g.value → hlookup (cloneN k g s).heap b = hlookup s.heap b) := by
  induction k with
  | zero =>
    intro s e he
    refine ⟨rfl, rfl, rfl, rfl, ?_, fun b hb => rfl⟩
    show hlookup s.heap g.value = _
    rw [he]
    rfl
  | succ k ih =>
    intro s e he
    have he' : hlookup (GStr.clone g s).2.heap g.value = some { e with count := e.count + 1 } := by
      show hlookup (hmodify s.heap g.value (fun x => { x with count := x.count + 1 })) g.value = _
      rw [hlookup_hmodify, if_pos rfl, he]
      rfl
    obtain ⟨h1, h2, h3, h4, h5, h6⟩ := ih (GStr.clone g s).2 { e with count := e.count + 1 } he'
    refine ⟨h1, h2, h3, h4, ?_, ?_⟩
    · show hlookup (cloneN k g (GStr.clone g s).2).heap g.value = _
      rw [h5]
      show some ({ e with count := e.count + 1 + k }) = some ({ e with count := e.count + (k + 1) })
      have hcnt : e.count + 1 + k = e.count + (k + 1) := by omega
      rw [hcnt]
    · intro b hb
      show hlookup (cloneN k g (GStr.clone g s).2).heap b = hlookup s.heap b
      rw [h6 b hb]
      show hlookup (hmodify s.heap g.value (fun x => { x with count := x.count + 1 })) b = _
      rw [hlookup_hmodify, if_neg hb]

theorem remove_result_frame (a : Nat) (s : State) (e : GStrInterner)
    (he : hlookup s.heap a = some e) (hcnt : e.count = 0) (hlock : s.lockPoisoned = false)
    (s2 : State) (hok : GStrInterner.remove a s = Except.ok s2) :
    s2.nextAddr = s.nextAddr ∧ s2.lockPoisoned = s.lockPoisoned ∧
    heapKeys s2.heap = heapKeys s.heap ∧
    (∀ b e₂, hlookup s2.heap b = some e₂ →
      ∃ e₃, hlookup s.heap b = some e₃ ∧ e₂.value = e₃.value ∧ e₂.len = e₃.len ∧
        e₂.hash = e₃.hash ∧ e₂.count = e₃.count) := by
  have hres := remove_result a s e he hcnt hlock s2 hok
  cases hnx : e.next with
  | some nx =>
    cases hpv : e.prev with
    | some pv =>
      have hs2 := hres.1 nx pv hnx hpv
      subst hs2
      refine ⟨rfl, rfl, ?_, ?_⟩
      · show heapKeys (hmodify (hmodify s.heap nx (fun ne => { ne with prev := e.prev })) pv (fun pe => { pe with next := e.next })) = heapKeys s.heap
        rw [heapKeys_hmodify, heapKeys_hmodify]
      · intro b e₂ hb
        obtain ⟨e₄, he₄, v1, l1, h1, c1⟩ := hmodify_links_lookup _ pv
          (fun pe => { pe with next := e.next }) (fun x => ⟨rfl, rfl, rfl, rfl⟩) b e₂ hb
        obtain ⟨e₅, he₅, v2, l2, h2, c2⟩ := hmodify_links_lookup _ nx
          (fun ne => { ne with prev := e.prev }) (fun x => ⟨rfl, rfl, rfl, rfl⟩) b e₄ he₄
        exact ⟨e₅, he₅, by rw [v1, v2], by rw [l1, l2], by rw [h1, h2], by rw [c1, c2]⟩
    | none =>
      have hs2 := hres.2.1 nx hnx hpv
      subst hs2
      refine ⟨rfl, rfl, ?_, ?_⟩
      · show heapKeys (hmodify s.heap nx (fun ne => { ne with prev := e.prev })) = heapKeys s.heap
        rw [heapKeys_hmodify]
      · intro b e₂ hb
        exact hmodify_links_lookup _ nx
          (fun ne => { ne with prev := e.prev }) (fun x => ⟨rfl, rfl, rfl, rfl⟩) b e₂ hb
  | none =>
    cases hpv : e.prev with
    | some pv =>
      have hs2 := hres.2.2.1 pv hnx hpv
      subst hs2
      refine ⟨rfl, rfl, ?_, ?_⟩
      · show heapKeys (hmodify s.heap pv (fun pe => { pe with next := e.next })) = heapKeys s.heap
        rw [heapKeys_hmodify]
      · intro b e₂ hb
        exact hmodify_links_lookup _ pv
          (fun pe => { pe with next := e.next }) (fun x => ⟨rfl, rfl, rfl, rfl⟩) b e₂ hb
    | none =>
      have hs2 := hres.2.2.2 hnx hpv
      subst hs2
      exact ⟨rfl, rfl, rfl, fun b e₂ hb => ⟨e₂, hb, rfl, rfl, rfl, rfl⟩⟩

theorem drop_final_lookup (s : State) (g : GStr) (e : GStrInterner)
    (he : hlookup s.heap g.value = some e) (hc : e.count - 1 = 0)
    (hlock : s.lockPoisoned = false) :
    ∃ s₄, GStr.drop g s = Except.ok s₄ ∧ hlookup s₄.heap g.value = none ∧
      heapKeys s₄.heap = (heapKeys s.heap).filter (fun k => k != g.value) ∧
      s₄.nextAddr = s.nextAddr ∧ s₄.lockPoisoned = s.lockPoisoned ∧
      (∀ b, b ≠ g.value → ∀ e₂, hlookup s₄.heap b = some e₂ →
        ∃ e₃, hlookup s.heap b = some e₃ ∧ e₂.value = e₃.value ∧ e₂.len = e₃.len ∧
          e₂.hash = e₃.hash ∧ e₂.count = e₃.count) := by
  obtain ⟨s2, hrem, hdrop⟩ := drop_final s g e he hc hlock
  have he₁ : hlookup (hmodify s.heap g.value (fun x => { x with count := x.count - 1 }))
      g.value = some { e with count := e.count - 1 } := by
    rw [hlookup_hmodify, if_pos rfl, he]
    rfl
  obtain ⟨hna, hlp, hkeys, htrans⟩ := remove_result_frame g.value
    { s with heap := hmodify s.heap g.value (fun x => { x with count := x.count - 1 }) }
    { e with count := e.count - 1 } he₁ hc hlock s2 hrem
  refine ⟨{ s2 with heap := hfree s2.heap g.value }, hdrop, ?_, ?_, hna, hlp, ?_⟩
  · show hlookup (hfree s2.heap g.value) g.value = none
    rw [hlookup_hfree, if_pos rfl]
  · show heapKeys (hfree s2.heap g.value) = _
    rw [heapKeys_hfree, hkeys]
    show (heapKeys (hmodify s.heap g.value (fun x => { x with count := x.count - 1 }))).filter _ = _
    rw [heapKeys_hmodify]
  · intro b hb e₂ hb₂
    have hb₂' : hlookup (hfree s2.heap g.value) b = some e₂ := hb₂
    rw [hlookup_hfree, if_neg hb] at hb₂'
    obtain ⟨e₃, he₃, v1, l1, h1, c1⟩ := htrans b e₂ hb₂'
    have he₃' : hlookup (hmodify s.heap g.value (fun x => { x with count := x.count - 1 })) b = some e₃ := he₃
    rw [hlookup_hmodify, if_neg hb] at he₃'
    exact ⟨e₃, he₃', v1, l1, h1, c1⟩

theorem dropN_nonfinal (g : GStr) (j : Nat) : ∀ (s : State) (e : GStrInterner),
    hlookup s.heap g.value = some e → j < e.count →
    ∃ s₃, dropN j g s = Except.ok s₃ ∧
      s₃.nextAddr = s.nextAddr ∧ s₃.lockPoisoned = s.lockPoisoned ∧
      hlookup s₃.heap g.value = some { e with count := e.count - j } ∧
      (∀ b, b ≠ g.value → hlookup s₃.heap b = hlookup s.heap b) ∧
      heapKeys s₃.heap = heapKeys s.heap := by
  induction j with
  | zero =>
    intro s e he hj
    refine ⟨s, rfl, rfl, rfl, ?_, fun b hb => rfl, rfl⟩
    rw [he]
    rfl
  | succ j ih =>
    intro s e he hj
    have hcne : ¬ e.count - 1 = 0 := by omega
    have hstep : dropN (j + 1) g s
        = dropN j g { s with heap := hmodify s.heap g.value (fun x => { x with count := x.count - 1 }) } := by
      simp only [dropN, drop_nonfinal s g e he hcne]
    have he' : hlookup (hmodify s.heap g.value (fun x => { x with count := x.count - 1 })) g.value
        = some { e with count := e.count - 1 } := by
      rw [hlookup_hmodify, if_pos rfl, he]
      rfl
    obtain ⟨s₃, h0, h1, h2, h3, h4, h5⟩ := ih
      { s with heap := hmodify s.heap g.value (fun x => { x with count := x.count - 1 }) }
      { e with count := e.count - 1 } he' (by show j < e.count - 1; omega)
    refine ⟨s₃, by rw [hstep]; exact h0, h1, h2, ?_, ?_, ?_⟩
    · rw [h3]
      show some ({ e with count := e.count - 1 - j }) = some ({ e with count := e.count - (j + 1) })
      have hq : e.count - 1 - j = e.count - (j + 1) := by omega
      rw [hq]
    · intro b hb
      rw [h4 b hb]
      show hlookup (hmodify s.heap g.value (fun x => { x with count := x.count - 1 })) b = _
      rw [hlookup_hmodify, if_neg hb]
    · rw [h5]
      show heapKeys (hmodify s.heap g.value (fun x => { x with count := x.count - 1 })) = _
      rw [heapKeys_hmodify]

theorem dropN_add (g : GStr) (i j : Nat) : ∀ s, dropN (i + j) g s =
    (match dropN i g s with
     | Except.ok s' => dropN j g s'
     | Except.error msg => Except.error msg) := by
  induction i with
  | zero =>
    intro s
    rw [Nat.zero_add]
    rfl
  | succ i ih =>
    intro s
    have hsucc : i + 1 + j = (i + j) + 1 := by omega
    rw [hsucc]
    show (match GStr.drop g s with
          | Except.ok s1 => dropN (i + j) g s1
          | Except.error msg => Except.error msg) =
      (match dropN (i + 1) g s with
       | Except.ok s1 => dropN j g s1
       | Except.error msg => Except.error msg)
    cases hd : GStr.drop g s with
    | ok s1 =>
      rw [show dropN (i + 1) g s = dropN i g s1 from by simp only [dropN, hd]]
      simp only [hd]
      exact ih s1
    | error m =>
      rw [show dropN (i + 1) g s = Except.error m from by simp only [dropN, hd]]

theorem filter_value_length_one (h : Heap) (v : String) :
    (heapKeys h).Nodup →
    (∀ a e b f, hlookup h a = some e → hlookup h b = some f → e.value = f.value → a = b) →
    ∀ a0 e0, hlookup h a0 = some e0 → e0.value = v →
    (h.filter (fun p => p.2.value == v)).length = 1 := by
  induction h with
  | nil =>
    intro _ _ a0 e0 h0 _
    cases h0
  | cons p t ih =>
    intro hnd hdis a0 e0 h0 hv
    obtain ⟨k, w⟩ := p
    rw [heapKeys_cons, List.nodup_cons] at hnd
    obtain ⟨hkt, hndt⟩ := hnd
    have hkw : hlookup ((k, w) :: t) k = some w := hlookup_cons_eq _ _ _
    have htlift : ∀ b f, hlookup t b = some f → hlookup ((k, w) :: t) b = some f := by
      intro b f hb
      have hbk : b ≠ k := by
        intro hc
        subst hc
        exact hkt (mem_keys_of_hlookup t b f hb)
      rw [hlookup_cons_ne _ _ _ _ hbk]
      exact hb
    by_cases hwv : w.value = v
    · rw [List.filter_cons, if_pos (by simp [hwv])]
      rw [List.length_cons]
      have hempty : t.filter (fun p => p.2.value == v) = [] := by
        apply List.filter_eq_nil_iff.mpr
        intro q hq hqv
        have hqv' : q.2.value = v := by simpa using hqv
        have hqlook : hlookup t q.1 = some q.2 := hlookup_of_mem t q.1 q.2 hndt hq
        have hqk : q.1 = k :=
          hdis q.1 q.2 k w (htlift q.1 q.2 hqlook) hkw (by rw [hqv', hwv])
        subst hqk
        exact hkt (mem_keys_of_hlookup t q.1 q.2 hqlook)
      rw [hempty]
      rfl
    · rw [List.filter_cons, if_neg (by simp [hwv])]
      have ha0k : a0 ≠ k := by
        intro hc
        subst hc
        rw [hkw] at h0
        injection h0 with h0
        subst h0
        exact hwv hv
      rw [hlookup_cons_ne _ _ _ _ ha0k] at h0
      refine ih hndt ?_ a0 e0 h0 hv
      intro a e b f ha hb hval
      exact hdis a e b f (htlift a e ha) (htlift b f hb) hval

theorem new_preserves_entry (strn : String) (s : State) (g : GStr) (s' : State)
    (hInv : RegInv s) (hok : GStr.new strn s = Except.ok (g, s')) :
    ∀ a e, hlookup s.heap a = some e →
      ∃ e', hlookup s'.heap a = some e' ∧ e'.value = e.value ∧ e'.len = e.len ∧
        e'.hash = e.hash ∧
        (if a = g.value then e'.count = e.count + 1 ∧ e'.next = e.next ∧ e'.prev = e.prev
         else e'.count = e.count) := by
  intro a e ha
  obtain ⟨hlock, hcases⟩ := new_cases strn s g s' hok
  obtain ⟨⟨addrs, hseg, hperm, hnd, hbnd⟩, hcoh, hdis⟩ := hInv
  rcases hcases with ⟨e₀, he₀, hcmp, hs'⟩ | ⟨hnone, hg, hs'⟩
  · subst hs'
    by_cases hag : a = g.value
    · refine ⟨{ e with count := e.count + 1 }, ?_, rfl, rfl, rfl, ?_⟩
      · show hlookup (hmodify s.heap g.value (fun x => { x with count := x.count + 1 })) a = _
        rw [hlookup_hmodify, if_pos hag, ha]
        rfl
      · rw [if_pos hag]
        exact ⟨rfl, rfl, rfl⟩
    · refine ⟨e, ?_, rfl, rfl, rfl, ?_⟩
      · show hlookup (hmodify s.heap g.value (fun x => { x with count := x.count + 1 })) a = _
        rw [hlookup_hmodify, if_neg hag, ha]
      · rw [if_neg hag]
  · subst hs'
    subst hg
    have hlt : a < s.nextAddr := (hbnd a e ha).2
    have hana : ¬ a = s.nextAddr := by omega
    have hag : ¬ a = (GStr.mk s.nextAddr).value := hana
    have hfreshl : s.nextAddr ∉ addrs :=
      fun hc => (fresh_not_mem s hbnd) (hperm.mem_iff.mp hc)
    have hna : ∀ t, s.tail = some t → t ≠ s.nextAddr := tail_ne_fresh s addrs hseg hfreshl
    have hl := create_lookup s strn (ohash strn).2 (ohash strn).1 a hna
    rw [if_neg hana] at hl
    by_cases hat : s.tail = some a
    · rw [if_pos hat, ha] at hl
      refine ⟨{ e with next := some s.nextAddr }, ?_, rfl, rfl, rfl, by rw [if_neg hag]⟩
      rw [hl]
      rfl
    · rw [if_neg hat, ha] at hl
      exact ⟨e, hl, rfl, rfl, rfl, by rw [if_neg hag]⟩






theorem inv_state0 : RegInv state0 := by
  refine ⟨⟨[], ⟨rfl, rfl⟩, List.Perm.refl _, List.nodup_nil, ?_⟩, ?_, ?_⟩
  · intro a e he
    exact Option.noConfusion he
  · intro a e he
    exact Option.noConfusion he
  · intro a e b f ha hb hv
    exact Option.noConfusion ha

theorem inv_stateA : RegInv stateA :=
  reginv_new ("a") state0 ⟨0⟩ stateA inv_state0 (by decide)

/-- C2: for every input string, `ohash` returns exactly the pair
described by the design: starting from `h = 0, n = 0`, for each
character in order `n = n + 1` and `h = (h * 31 + code_point) * n`
with 32-bit unsigned wraparound at each step; the fingerprint is the
final `h mod 486187739` and the length is the final `n`, the number
of Unicode scalar values of the input (`c.data.length`), not its byte
count. -/
theorem gstr_C2_hash_exact (c : String) :
    ohash c = hash_and_length_spec c ∧ (ohash c).2 = c.data.length ∧
    (ohash c).1 < 486187739 := by
  refine ⟨?_, ohash_len c, ?_⟩
  · show ((ohashAux c.data 0 0).1 % CHAR_COUSIN, (ohashAux c.data 0 0).2) = _
    rw [ohashAux_eq_foldl]
    rfl
  · show (ohashAux c.data 0 0).1 % CHAR_COUSIN < 486187739
    exact Nat.mod_lt _ (by decide)

/-- C4: when the registry mutex cannot be acquired (poisoned lock),
`GStr::new` — for every `StringInfo` input — and the structural
unlink `GStrInterner::remove` (reached during a final release, when
the count is zero) stop with the `expect` panic instead of touching
the list: in the model they return `Except.error` and no continuation
observes or modifies the registry. -/
theorem gstr_C4_lock_failure_aborts (s : State) (hp : s.lockPoisoned = true) :
    (∀ strn, GStr.new strn s = Except.error ("No se pudo bloquear el mutex")) ∧
    (∀ t, GStr.newT t s = Except.error ("No se pudo bloquear el mutex")) ∧
    (∀ a e, hlookup s.heap a = some e → e.count = 0 →
      GStrInterner.remove a s = Except.error ("No se pudo bloquear el mutex")) := by
  refine ⟨?_, ?_, ?_⟩
  · intro strn
    simp only [GStr.new, if_pos hp]
  · intro t
    simp only [GStr.newT, if_pos hp]
  · intro a e he hc
    simp only [GStrInterner.remove, he, hc, hp, if_pos rfl, if_true]

/-- Witness for C4 at a concrete poisoned state holding one node with
count zero. -/
theorem gstr_C4_witness :
    c4state.lockPoisoned = true ∧
    GStr.new ("b") c4state = Except.error ("No se pudo bloquear el mutex") ∧
    GStrInterner.remove 0 c4state = Except.error ("No se pudo bloquear el mutex") :=
  ⟨rfl, (gstr_C4_lock_failure_aborts c4state rfl).1 ("b"),
    (gstr_C4_lock_failure_aborts c4state rfl).2.2 0 ⟨"a", 1, 0, 97, none, none⟩ rfl rfl⟩

/-- C7: for every successful intern, `chars_count` returns the number
of Unicode scalar values of the interned content (the cached `len`
field, never a rescan of the bytes): on a hit the matching node
passed the `compare` length check, on a miss the node is created with
the length that `ohash` counted. -/
theorem gstr_C7_chars_count (s : State) (c : String) (g : GStr) (s' : State)
    (hok : GStr.new c s = Except.ok (g, s')) :
    GStr.chars_count g s' = some c.data.length := by
  obtain ⟨e, he, hv, hlen⟩ := new_value_len c s g s' hok
  show (hlookup s'.heap g.value).map GStrInterner.len = some c.data.length
  rw [he]
  show some e.len = some c.data.length
  rw [hlen, ohash_len]

/-- Witness for C7 on a three-character, seven-byte string: the count
is the scalar count 3, not the byte count 7. -/
theorem gstr_C7_witness :
    GStr.new ("añ😀") state0 = Except.ok (⟨0⟩, c7state) ∧
    GStr.chars_count ⟨0⟩ c7state = some 3 ∧ ("añ😀" : String).utf8ByteSize = 7 :=
  ⟨by decide, gstr_C7_chars_count state0 ("añ😀") ⟨0⟩ c7state (by decide), by decide⟩

/-- C10: input representation does not affect interning: `GStr::new`
through the `String`, `&String` and `&str` instances of `StringInfo`
is the very same function of the content (so equal content always
yields identity-equal handles and equal final states), and the
handle returned by a successful intern dereferences (`as_ref`) to
exactly the input content. -/
theorem gstr_C10_input_representation (s : State) (c : String) :
    GStr.newT (StringInput.ownedString c) s = GStr.new c s ∧
    GStr.newT (StringInput.refString c) s = GStr.new c s ∧
    GStr.newT (StringInput.refStr c) s = GStr.new c s ∧
    (∀ g s', GStr.new c s = Except.ok (g, s') → GStr.as_ref g s' = some c) := by
  refine ⟨newT_eq_new _ s, newT_eq_new _ s, newT_eq_new _ s, ?_⟩
  intro g s' hok
  obtain ⟨e, he, hv, _⟩ := new_value_len c s g s' hok
  show (hlookup s'.heap g.value).map GStrInterner.value = some c
  rw [he]
  show some e.value = some c
  rw [hv]

/-- Witness for C10 at a concrete state and content. -/
theorem gstr_C10_witness :
    GStr.newT (StringInput.refStr ("a")) state0 = GStr.new ("a") state0 ∧
    GStr.as_ref ⟨0⟩ stateA = some ("a") :=
  ⟨(gstr_C10_input_representation state0 ("a")).2.2.1,
   (gstr_C10_input_representation state0 ("a")).2.2.2 ⟨0⟩ stateA (by decide)⟩

/-- C1: in an invariant state, two successive interns yield handles
that are identity-equal (`PartialEq::eq`, pointer comparison) exactly
when the interned contents are equal, and after the interns the
registry holds exactly one node for each interned content. -/
theorem gstr_C1_dedup_identity (s : State) (hInv : RegInv s) (a b : String)
    (ga gb : GStr) (s₁ s₂ : State)
    (h₁ : GStr.new a s = Except.ok (ga, s₁))
    (h₂ : GStr.new b s₁ = Except.ok (gb, s₂)) :
    (GStr.eq ga gb = true ↔ a = b) ∧
    (s₂.heap.filter (fun p => p.2.value == b)).length = 1 ∧
    (s₂.heap.filter (fun p => p.2.value == a)).length = 1 := by
  have hInv₁ : RegInv s₁ := reginv_new a s ga s₁ hInv h₁
  have hInv₂ : RegInv s₂ := reginv_new b s₁ gb s₂ hInv₁ h₂
  obtain ⟨ea, hea, heav, _⟩ := new_value_len a s ga s₁ h₁
  obtain ⟨eb, heb, hebv, _⟩ := new_value_len b s₁ gb s₂ h₂
  obtain ⟨ea', hea', heav', _, _, _⟩ := new_preserves_entry b s₁ gb s₂ hInv₁ h₂ ga.value ea hea
  obtain ⟨⟨addrs₂, hseg₂, hperm₂, hnd₂, hbnd₂⟩, hcoh₂, hdis₂⟩ := hInv₂
  have heqval : GStr.eq ga gb = true ↔ ga.value = gb.value := by
    simp [GStr.eq]
  refine ⟨?_, ?_, ?_⟩
  · rw [heqval]
    constructor
    · intro hv
      rw [hv, heb] at hea'
      injection hea' with hea'
      rw [← heav, ← heav', ← hea', hebv]
    · intro hab
      subst hab
      exact hdis₂ ga.value ea' gb.value eb hea' heb (by rw [heav', heav, hebv])
  · exact filter_value_length_one s₂.heap b hnd₂ hdis₂ gb.value eb heb hebv
  · exact filter_value_length_one s₂.heap a hnd₂ hdis₂ ga.value ea' hea' (by rw [heav', heav])

/-- Witness for C1, interning the two distinct contents of the
running example and the same content twice. -/
theorem gstr_C1_witness :
    RegInv state0 ∧
    ((GStr.eq ⟨0⟩ ⟨1⟩ = true ↔ ("a" : String) = ("b" : String)) ∧
     (stateAB.heap.filter (fun p => p.2.value == ("b" : String))).length = 1 ∧
     (stateAB.heap.filter (fun p => p.2.value == ("a" : String))).length = 1) :=
  ⟨inv_state0,
   gstr_C1_dedup_identity state0 inv_state0 ("a") ("b") ⟨0⟩ ⟨1⟩ stateA stateAB
     (by decide) (by decide)⟩

/-- C9 (amended): once a node exists, its content, length and
fingerprint are never modified by any operation; a matching intern
changes only its count (by one, links untouched); an intern of
different content leaves content, length, fingerprint and count of
every existing node unchanged (only the old tail next link may
change); duplication changes only the count of its own node; a
release leaves content, length, fingerprint and count of every other
surviving node unchanged (only links may change). -/
theorem gstr_C9_frame (s : State) (hInv : RegInv s) :
    (∀ strn g s', GStr.new strn s = Except.ok (g, s') →
      ∀ a e, hlookup s.heap a = some e →
        ∃ e', hlookup s'.heap a = some e' ∧ e'.value = e.value ∧ e'.len = e.len ∧
          e'.hash = e.hash ∧
          (if a = g.value then e'.count = e.count + 1 ∧ e'.next = e.next ∧ e'.prev = e.prev
           else e'.count = e.count)) ∧
    (∀ g a e, hlookup s.heap a = some e →
      ∃ e', hlookup (GStr.clone g s).2.heap a = some e' ∧
        (if a = g.value then e' = { e with count := e.count + 1 } else e' = e)) ∧
    (∀ g s', GStr.drop g s = Except.ok s' →
      ∀ a e, a ≠ g.value → hlookup s.heap a = some e →
        ∃ e', hlookup s'.heap a = some e' ∧ e'.value = e.value ∧ e'.len = e.len ∧
          e'.hash = e.hash ∧ e'.count = e.count) := by
  refine ⟨fun strn g s' hok => new_preserves_entry strn s g s' hInv hok, ?_, ?_⟩
  · intro g a e ha
    show ∃ e', hlookup (hmodify s.heap g.value (fun x => { x with count := x.count + 1 })) a
      = some e' ∧ _
    by_cases hag : a = g.value
    · refine ⟨{ e with count := e.count + 1 }, ?_, by rw [if_pos hag]⟩
      rw [hlookup_hmodify, if_pos hag, ha]
      rfl
    · refine ⟨e, ?_, by rw [if_neg hag]⟩
      rw [hlookup_hmodify, if_neg hag]
      exact ha
  · intro g s' hok a e hane ha
    cases he₀ : hlookup s.heap g.value with
    | none => simp [GStr.drop, he₀] at hok
    | some e₀ =>
      by_cases hc : e₀.count - 1 = 0
      · by_cases hl : s.lockPoisoned = true
        · rw [drop_final_poisoned s g e₀ he₀ hc hl] at hok
          cases hok
        · have hl' : s.lockPoisoned = false := by simpa using hl
          obtain ⟨s₄, hd, _, hkeys, _, _, htrans⟩ := drop_final_lookup s g e₀ he₀ hc hl'
          rw [hd] at hok
          injection hok with hok
          subst hok
          have hmem : a ∈ heapKeys s₄.heap := by
            rw [hkeys]
            refine List.mem_filter.mpr ⟨mem_keys_of_hlookup s.heap a e ha, ?_⟩
            simp [bne_iff_ne]
            exact hane
          obtain ⟨e₂, he₂⟩ := exists_hlookup_of_mem_keys s₄.heap a hmem
          obtain ⟨e₃, he₃, v1, l1, h1, c1⟩ := htrans a hane e₂ he₂
          rw [ha] at he₃
          injection he₃ with he₃
          subst he₃
          exact ⟨e₂, he₂, v1, l1, h1, c1⟩
      · rw [drop_nonfinal s g e₀ he₀ hc] at hok
        injection hok with hok
        subst hok
        refine ⟨e, ?_, rfl, rfl, rfl, rfl⟩
        show hlookup (hmodify s.heap g.value (fun x => { x with count := x.count - 1 })) a = _
        rw [hlookup_hmodify, if_neg hane]
        exact ha

/-- Counterexample to C9 as stated: interning the different content
"b" after "a" does not leave the node of "a" entirely unchanged — its
`next` link is patched from null to the new node when it is the tail. -/
theorem gstr_C9_counterexample :
    GStr.new ("a") state0 = Except.ok (⟨0⟩, stateA) ∧
    GStr.new ("b") stateA = Except.ok (⟨1⟩, stateAB) ∧
    hlookup stateA.heap 0 = some ⟨"a", 1, 1, 97, none, none⟩ ∧
    hlookup stateAB.heap 0 = some ⟨"a", 1, 1, 97, some 1, none⟩ ∧
    hlookup stateA.heap 0 ≠ hlookup stateAB.heap 0 :=
  ⟨by decide, by decide, by decide, by decide, by decide⟩

/-- Witness for C9 (amended) at the concrete one-node state: the
intern of "b" preserves content, length, fingerprint and count of the
node holding "a". -/
theorem gstr_C9_frame_witness :
    RegInv stateA ∧
    (∃ e', hlookup stateAB.heap 0 = some e' ∧ e'.value = ("a" : String) ∧ e'.len = 1 ∧
      e'.hash = 97 ∧
      (if (0 : Nat) = (GStr.mk 1).value
       then e'.count = 1 + 1 ∧ e'.next = none ∧ e'.prev = none
       else e'.count = 1)) :=
  ⟨inv_stateA,
   (gstr_C9_frame stateA inv_stateA).1 ("b") ⟨1⟩ stateAB (by decide) 0
     ⟨"a", 1, 1, 97, none, none⟩ (by decide)⟩

/-- C8 evidence: the count updates of `Clone` and of a non-final
`Drop` are plain unsynchronized writes that never consult the
registry mutex: on a state whose lock is poisoned (where every
lock acquisition — as `GStr::new` shows — panics), `Clone` still
increments the count and a non-final `Drop` still decrements it and
returns normally.  Only the structural unlink of the final release
takes the lock. -/
theorem gstr_C8_counter_updates_bypass_lock :
    GStr.new ("a") c8state = Except.error ("No se pudo bloquear el mutex") ∧
    (GStr.clone ⟨0⟩ c8state).2.heap = [(0, ⟨"a", 1, 3, 97, none, none⟩)] ∧
    (GStr.clone ⟨0⟩ c8state).2.lockPoisoned = true ∧
    GStr.drop ⟨0⟩ c8state
      = Except.ok { c8state with heap := [(0, ⟨"a", 1, 1, 97, none, none⟩)] } :=
  ⟨by decide, by decide, rfl, by decide⟩

/-- C5: the registry invariant — the chain from `begin` to `tail` is
a well-formed doubly linked list (forward links reach the tail,
backward links mirror them, no orphan nodes) covering exactly the
allocated nodes, all of which have a positive count — is preserved by
intern (hit and miss), by duplication and by release; moreover a miss
appends the new node at the tail (its `prev` is the old tail, the old
tail `next` is patched to it) and the new node becomes the head as
well when the list was empty. -/
theorem gstr_C5_registry_invariant (s : State) (hInv : RegInv s) :
    (∀ strn g s', GStr.new strn s = Except.ok (g, s') → RegInv s') ∧
    (∀ g, RegInv (GStr.clone g s).2) ∧
    (∀ g s', GStr.drop g s = Except.ok s' → RegInv s') ∧
    (∀ strn, (∀ a e, hlookup s.heap a = some e → e.value ≠ strn) → s.lockPoisoned = false →
      ∃ s', GStr.new strn s = Except.ok (⟨s.nextAddr⟩, s') ∧
        s'.tail = some s.nextAddr ∧
        (s.begin = none → s'.begin = some s.nextAddr) ∧
        hlookup s'.heap s.nextAddr
          = some ⟨strn, (ohash strn).2, 1, (ohash strn).1, none, s.tail⟩ ∧
        (∀ t te, s.tail = some t → hlookup s.heap t = some te →
          hlookup s'.heap t = some { te with next := some s.nextAddr })) := by
  refine ⟨fun strn g s' hok => reginv_new strn s g s' hInv hok,
    fun g => reginv_clone s g hInv,
    fun g s' hok => reginv_drop s g s' hInv hok, ?_⟩
  intro strn hfresh hlock
  obtain ⟨⟨addrs, hseg, hperm, hnd, hbnd⟩, hcoh, hdis⟩ := hInv
  have hfreshl : s.nextAddr ∉ addrs :=
    fun hc => (fresh_not_mem s hbnd) (hperm.mem_iff.mp hc)
  have hna : ∀ t, s.tail = some t → t ≠ s.nextAddr := tail_ne_fresh s addrs hseg hfreshl
  cases hr : GStr.new strn s with
  | error m =>
    exfalso
    rw [GStr.new, if_neg (by rw [hlock]; simp)] at hr
    cases hsv : search_value strn (ohash strn).2 (ohash strn).1 s.heap.length s.begin s.heap with
    | some vh => rw [hsv] at hr; cases hr
    | none => rw [hsv] at hr; cases hr
  | ok pair =>
    obtain ⟨g, s'⟩ := pair
    obtain ⟨_, hcases⟩ := new_cases strn s g s' hr
    rcases hcases with ⟨e, he, hcmp, _⟩ | ⟨hnone, hg, hs'⟩
    · exfalso
      rw [compare_eq_true_iff] at hcmp
      exact hfresh g.value e he hcmp.2.2
    · subst hg
      subst hs'
      refine ⟨(create_gstr strn (ohash strn).2 (ohash strn).1 s).2, rfl,
        create_gstr_tail _ _ _ _, ?_, ?_, ?_⟩
      · intro hbg
        rw [create_gstr_begin, if_pos hbg]
      · rw [create_lookup s strn (ohash strn).2 (ohash strn).1 s.nextAddr hna, if_pos rfl]
      · intro t te htl hte
        rw [create_lookup s strn (ohash strn).2 (ohash strn).1 t hna,
          if_neg (hna t htl), if_pos htl, hte]
        rfl

/-- Witness for C5: the invariant holds of the concrete one-node
state and is preserved by the concrete miss intern producing the
two-node state. -/
theorem gstr_C5_witness : RegInv stateA ∧ RegInv stateAB :=
  ⟨inv_stateA,
   (gstr_C5_registry_invariant stateA inv_stateA).1 ("b") ⟨1⟩ stateAB (by decide)⟩

/-- C3: create a fresh handle (count starts at one) and duplicate it
`k` times; then any `j ≤ k` releases leave the node in the registry
with count `k + 1 - j`, and the `(k+1)`-st release removes it from
the registry. -/
theorem gstr_C3_refcount (s : State) (hInv : RegInv s) (hlock : s.lockPoisoned = false)
    (x : String) (hfresh : ∀ a e, hlookup s.heap a = some e → e.value ≠ x)
    (g : GStr) (s₁ : State) (hnew : GStr.new x s = Except.ok (g, s₁)) (k : Nat) :
    (∀ j, j ≤ k → ∃ s₃ e, dropN j g (cloneN k g s₁) = Except.ok s₃ ∧
      hlookup s₃.heap g.value = some e ∧ e.count = k + 1 - j) ∧
    (∃ s₄, dropN (k + 1) g (cloneN k g s₁) = Except.ok s₄ ∧
      hlookup s₄.heap g.value = none) := by
  obtain ⟨⟨addrs, hseg, hperm, hnd, hbnd⟩, hcoh, hdis⟩ := hInv
  have hfreshl : s.nextAddr ∉ addrs :=
    fun hc => (fresh_not_mem s hbnd) (hperm.mem_iff.mp hc)
  have hna : ∀ t, s.tail = some t → t ≠ s.nextAddr := tail_ne_fresh s addrs hseg hfreshl
  obtain ⟨_, hcases⟩ := new_cases x s g s₁ hnew
  rcases hcases with ⟨e, he, hcmp, _⟩ | ⟨hnone, hg, hs'⟩
  · exfalso
    rw [compare_eq_true_iff] at hcmp
    exact hfresh g.value e he hcmp.2.2
  · subst hg
    subst hs'
    have hlook1 : hlookup (create_gstr x (ohash x).2 (ohash x).1 s).2.heap s.nextAddr
        = some ⟨x, (ohash x).2, 1, (ohash x).1, none, s.tail⟩ := by
      rw [create_lookup s x (ohash x).2 (ohash x).1 s.nextAddr hna, if_pos rfl]
    obtain ⟨hc1, hc2, hc3, hc4, hc5, hc6⟩ := cloneN_spec (GStr.mk s.nextAddr) k
      (create_gstr x (ohash x).2 (ohash x).1 s).2
      ⟨x, (ohash x).2, 1, (ohash x).1, none, s.tail⟩ hlook1
    refine ⟨?_, ?_⟩
    · intro j hj
      obtain ⟨s₃, hd, _, _, h3, _, _⟩ := dropN_nonfinal (GStr.mk s.nextAddr) j
        (cloneN k (GStr.mk s.nextAddr) (create_gstr x (ohash x).2 (ohash x).1 s).2)
        { (⟨x, (ohash x).2, 1, (ohash x).1, none, s.tail⟩ : GStrInterner) with count := 1 + k }
        hc5 (by show j < 1 + k; omega)
      refine ⟨s₃, _, hd, h3, ?_⟩
      show (1 : Nat) + k - j = k + 1 - j
      omega
    · obtain ⟨s₃, hd, hna₃, hlock₃, h3, _, _⟩ := dropN_nonfinal (GStr.mk s.nextAddr) k
        (cloneN k (GStr.mk s.nextAddr) (create_gstr x (ohash x).2 (ohash x).1 s).2)
        { (⟨x, (ohash x).2, 1, (ohash x).1, none, s.tail⟩ : GStrInterner) with count := 1 + k }
        hc5 (by show k < 1 + k; omega)
      have hlock₃' : s₃.lockPoisoned = false := by
        rw [hlock₃, hc4, create_gstr_lock]
        exact hlock
      obtain ⟨s₄, hdf, hnone₄, _, _, _, _⟩ := drop_final_lookup s₃ (GStr.mk s.nextAddr) _ h3
        (by show (1 : Nat) + k - k - 1 = 0; omega) hlock₃'
      refine ⟨s₄, ?_, hnone₄⟩
      have hstep : dropN (k + 1) (GStr.mk s.nextAddr)
          (cloneN k (GStr.mk s.nextAddr) (create_gstr x (ohash x).2 (ohash x).1 s).2)
          = dropN 1 (GStr.mk s.nextAddr) s₃ := by
        rw [dropN_add (GStr.mk s.nextAddr) k 1
          (cloneN k (GStr.mk s.nextAddr) (create_gstr x (ohash x).2 (ohash x).1 s).2)]
        simp only [hd]
      rw [hstep]
      simp only [dropN, hdf]

/-- Witness for C3 with one duplicate of a fresh handle: after one
release the node survives with count one, after the second it is
gone. -/
theorem gstr_C3_witness :
    RegInv state0 ∧ state0.lockPoisoned = false ∧
    ((∀ j, j ≤ 1 → ∃ s₃ e, dropN j ⟨0⟩ (cloneN 1 ⟨0⟩ stateA) = Except.ok s₃ ∧
        hlookup s₃.heap (GStr.mk 0).value = some e ∧ e.count = 1 + 1 - j) ∧
     (∃ s₄, dropN (1 + 1) ⟨0⟩ (cloneN 1 ⟨0⟩ stateA) = Except.ok s₄ ∧
        hlookup s₄.heap (GStr.mk 0).value = none)) :=
  ⟨inv_state0, rfl,
   gstr_C3_refcount state0 inv_state0 rfl ("a")
     (fun a e he => Option.noConfusion he) ⟨0⟩ stateA (by decide) 1⟩

/-- C6: intern fresh content, release the only handle (the node is
removed), intern the same content again: the new handle is not
identity-equal to the original (a fresh allocation at a fresh
address), the registry size after the release is back to what it was
before the temporary interning, and a new node holding the content
exists after the re-intern. -/
theorem gstr_C6_reuse (s : State) (hInv : RegInv s) (hlock : s.lockPoisoned = false)
    (c : String) (hfresh : ∀ a e, hlookup s.heap a = some e → e.value ≠ c)
    (g : GStr) (s₁ : State) (h₁ : GStr.new c s = Except.ok (g, s₁))
    (s₂ : State) (h₂ : GStr.drop g s₁ = Except.ok s₂)
    (g' : GStr) (s₃ : State) (h₃ : GStr.new c s₂ = Except.ok (g', s₃)) :
    GStr.eq g' g = false ∧ g.value = s.nextAddr ∧ g'.value = s.nextAddr + 1 ∧
    s₂.heap.length = s.heap.length ∧
    (∃ e, hlookup s₃.heap g'.value = some e ∧ e.value = c) := by
  obtain ⟨⟨addrs, hseg, hperm, hnd, hbnd⟩, hcoh, hdis⟩ := hInv
  have hfreshl : s.nextAddr ∉ addrs :=
    fun hc => (fresh_not_mem s hbnd) (hperm.mem_iff.mp hc)
  have hna : ∀ t, s.tail = some t → t ≠ s.nextAddr := tail_ne_fresh s addrs hseg hfreshl
  obtain ⟨_, hcases⟩ := new_cases c s g s₁ h₁
  rcases hcases with ⟨e, he, hcmp, _⟩ | ⟨hnone, hg, hs'⟩
  · exfalso
    rw [compare_eq_true_iff] at hcmp
    exact hfresh g.value e he hcmp.2.2
  subst hg
  subst hs'
  have hlook1 : hlookup (create_gstr c (ohash c).2 (ohash c).1 s).2.heap s.nextAddr
      = some ⟨c, (ohash c).2, 1, (ohash c).1, none, s.tail⟩ := by
    rw [create_lookup s c (ohash c).2 (ohash c).1 s.nextAddr hna, if_pos rfl]
  have hlock₁ : (create_gstr c (ohash c).2 (ohash c).1 s).2.lockPoisoned = false := by
    rw [create_gstr_lock]
    exact hlock
  obtain ⟨s₄, hd, hnone₄, hkeys₄, hnext₄, _, htrans₄⟩ :=
    drop_final_lookup (create_gstr c (ohash c).2 (ohash c).1 s).2 (GStr.mk s.nextAddr)
      ⟨c, (ohash c).2, 1, (ohash c).1, none, s.tail⟩ hlook1 rfl hlock₁
  rw [hd] at h₂
  injection h₂ with h₂
  subst h₂
  have hkeys₂ : heapKeys s₄.heap = heapKeys s.heap := by
    rw [hkeys₄, create_keys, List.filter_cons]
    simp only [bne_self_eq_false, Bool.false_eq_true, if_false]
    rw [List.filter_eq_self.mpr]
    intro b hb
    obtain ⟨eb, heb⟩ := exists_hlookup_of_mem_keys _ _ hb
    have hblt := (hbnd b eb heb).2
    simp only [bne_iff_ne, ne_eq, decide_eq_true_eq]
    omega
  have hlen : s₄.heap.length = s.heap.length := by
    have hq : (heapKeys s₄.heap).length = (heapKeys s.heap).length := by rw [hkeys₂]
    simpa [heapKeys, List.length_map] using hq
  have hfresh₂ : ∀ a ea, hlookup s₄.heap a = some ea → ea.value ≠ c := by
    intro a ea ha hval
    by_cases hana : a = s.nextAddr
    · rw [hana] at ha
      rw [show hlookup s₄.heap (GStr.mk s.nextAddr).value = none from hnone₄] at ha
      cases ha
    · obtain ⟨e₃, he₃, v1, _, _, _⟩ := htrans₄ a hana ea ha
      rw [create_lookup s c (ohash c).2 (ohash c).1 a hna, if_neg hana] at he₃
      by_cases hat : s.tail = some a
      · rw [if_pos hat] at he₃
        cases hsa : hlookup s.heap a with
        | none => rw [hsa] at he₃; cases he₃
        | some es =>
          rw [hsa] at he₃
          injection he₃ with he₃
          refine hfresh a es hsa ?_
          have hev : e₃.value = es.value := by rw [← he₃]
          rw [← hev, ← v1, hval]
      · rw [if_neg hat] at he₃
        exact hfresh a e₃ he₃ (by rw [← v1, hval])
  obtain ⟨_, hcases'⟩ := new_cases c s₄ g' s₃ h₃
  rcases hcases' with ⟨e', he', hcmp', _⟩ | ⟨hnone', hg', hs₃'⟩
  · exfalso
    rw [compare_eq_true_iff] at hcmp'
    exact hfresh₂ g'.value e' he' hcmp'.2.2
  subst hg'
  have hna₂ : s₄.nextAddr = s.nextAddr + 1 := by
    rw [hnext₄, create_gstr_nextAddr]
  refine ⟨?_, rfl, ?_, hlen, ?_⟩
  · show ((GStr.mk s₄.nextAddr).value == (GStr.mk s.nextAddr).value) = false
    show (s₄.nextAddr == s.nextAddr) = false
    rw [hna₂]
    simp only [beq_eq_false_iff_ne, ne_eq]
    omega
  · show (GStr.mk s₄.nextAddr).value = s.nextAddr + 1
    exact hna₂
  · obtain ⟨e₂, he₂, hv₂, _⟩ := new_value_len c s₄ (GStr.mk s₄.nextAddr) s₃ h₃
    exact ⟨e₂, he₂, hv₂⟩



/-- Witness for C6 at the concrete trace: intern "a", release it,
intern "a" again; the second handle is at address 1, the registry
is back to empty in between. -/
theorem gstr_C6_witness :
    RegInv state0 ∧
    (GStr.eq ⟨1⟩ ⟨0⟩ = false ∧ (GStr.mk 0).value = state0.nextAddr ∧
     (GStr.mk 1).value = state0.nextAddr + 1 ∧
     c6state₂.heap.length = state0.heap.length ∧
     (∃ e, hlookup c6state₃.heap (GStr.mk 1).value = some e ∧ e.value = ("a" : String))) :=
  ⟨inv_state0,
   gstr_C6_reuse state0 inv_state0 rfl ("a")
     (fun a e he => Option.noConfusion he) ⟨0⟩ stateA (by decide)
     c6state₂ (by decide) ⟨1⟩ c6state₃ (by decide)⟩
